import Mathlib

/-!
# Verification of `merge_chunks.py`

Shallow embedding of the post-processing pipeline of the pdf-extractor-cli
repository (`src/merge_chunks.py`): `merge_with_overlap`, `trim_hyphens`,
`add_header_spacing`, `reflow_paragraphs`, and the `main` pipeline.

Strings are modelled as `List Char` internally with `String` wrappers at the
API.  Python library semantics used by the script (`re.sub`, `re.split`,
`str.split`, `str.strip`, `sorted`, slicing, and `textwrap.fill` of
CPython 3.11) are embedded directly; each embedded definition notes the
Python construct it mirrors.
-/

/-- Python's `\s` character class for `str` patterns (and the whitespace set
of `str.split` / `str.strip`): Unicode whitespace.  All code points are
listed explicitly. -/
def pyWs (c : Char) : Bool :=
  c == ' ' || c == '\t' || c == '\n' || c == '\r' || c == '\x0b' || c == '\x0c' ||
  c == '\x1c' || c == '\x1d' || c == '\x1e' || c == '\x1f' || c == '\x85' || c == '\xa0' ||
  c == ' ' || c == ' ' || c == ' ' || c == ' ' || c == ' ' ||
  c == ' ' || c == ' ' || c == ' ' || c == ' ' || c == ' ' ||
  c == ' ' || c == ' ' || c == ' ' || c == ' ' || c == ' ' ||
  c == ' ' || c == '　'

/-- `textwrap._whitespace = '\t\n\x0b\x0c\r '` (deliberately ASCII-only). -/
def twWs (c : Char) : Bool :=
  c == '\t' || c == '\n' || c == '\x0b' || c == '\x0c' || c == '\r' || c == ' '

/-! ## `merge_with_overlap`

```python
def merge_with_overlap(paths, max_check=500):
    merged = ""
    for p in sorted(paths):
        text = p.read_text(encoding='utf-8', errors='ignore')
        if not merged:
            merged = text
            continue
        tail = merged[-max_check:]
        head = text[:max_check]
        for i in range(len(head), 0, -1):
            if tail.endswith(head[:i]):
                text = text[i:]
                break
        merged += text
    return merged
```

Fragment sources are modelled as `(identifier, contents)` pairs; `sorted`
over `Path` objects compares the path strings (for plain file names this is
code-point lexicographic order, as for Lean's `String` order), and Python's
sort is stable — modelled by a stable insertion sort on the identifiers.
(A repeated identifier denotes the same file, hence the same contents, so
the tie-breaking order among equal identifiers is unobservable.) -/

/-- Python string comparison: code-point lexicographic `≤`. -/
def keyLe : List Char → List Char → Bool
  | [], _ => true
  | _ :: _, [] => false
  | c :: cs, d :: ds =>
    if c.toNat = d.toNat then keyLe cs ds else decide (c.toNat < d.toNat)

/-- Stable insertion into a list sorted by identifier: the new element goes
before the first element whose identifier is not smaller. -/
def insertSorted (x : String × String) : List (String × String) → List (String × String)
  | [] => [x]
  | y :: ys => if keyLe x.1.data y.1.data then x :: y :: ys else y :: insertSorted x ys

/-- Python's stable `sorted` by identifier. -/
def pySorted (l : List (String × String)) : List (String × String) :=
  l.foldr insertSorted []

/-- Python slice `s[i:]` (negative indices count from the end, clamped). -/
def pysliceFrom (s : List Char) (i : Int) : List Char :=
  if 0 ≤ i then s.drop i.toNat else s.drop (s.length - (-i).toNat)

/-- Python slice `s[:i]` (negative indices count from the end, clamped). -/
def pysliceTo (s : List Char) (i : Int) : List Char :=
  if 0 ≤ i then s.take i.toNat else s.take (s.length - (-i).toNat)

/-- `for i in range(n, 0, -1): if tail.endswith(head[:i]): ... break` —
the first (largest) `i` in `[1, n]` with `head[:i]` a suffix of `tail`. -/
def findOverlap (tl hd : List Char) : Nat → Option Nat
  | 0 => none
  | n + 1 => if (hd.take (n + 1)).isSuffixOf tl then some (n + 1) else findOverlap tl hd n

/-- One iteration of the merge loop for a non-empty accumulator:
window computation, the overlap search, and the append. -/
def mergeStep (merged text : List Char) (maxCheck : Int) : List Char :=
  let tl := pysliceFrom merged (-maxCheck)
  let hd := pysliceTo text maxCheck
  match findOverlap tl hd hd.length with
  | some i => merged ++ text.drop i
  | none => merged ++ text

/-- The `for p in sorted(paths)` loop body, including the `if not merged`
seeding branch (checked at every iteration). -/
def mergeLoop (maxCheck : Int) : List Char → List (String × String) → List Char
  | acc, [] => acc
  | acc, f :: rest =>
    if acc.isEmpty then mergeLoop maxCheck f.2.data rest
    else mergeLoop maxCheck (mergeStep acc f.2.data maxCheck) rest

/-- `merge_with_overlap`: sorts the fragment identifiers, then folds. -/
def merge_with_overlap (frags : List (String × String)) (maxCheck : Int) : String :=
  ⟨mergeLoop maxCheck [] (pySorted frags)⟩

/-- Modelled from the spec's words (not from the code) for comparison:
"fragments are processed in a caller-determined order … an accumulator
starts empty; the first fragment is appended to it verbatim", i.e. the same
fold but in the caller's given order, without sorting. -/
def mergeWithOverlapGivenOrder (frags : List (String × String)) (maxCheck : Int) : String :=
  ⟨mergeLoop maxCheck [] frags⟩

/-! ## `trim_hyphens`

```python
def trim_hyphens(text):
    text = re.sub(r'[-¬]\n', '', text)
    return re.sub(r'¬\s*', '', text)
```
-/

/-- `re.sub(r'[-¬]\n', '', text)`: left-to-right, non-overlapping removal of
a `-` or `¬` immediately followed by a newline. -/
def trimSub1 : List Char → List Char
  | [] => []
  | [c] => [c]
  | c :: d :: rest =>
    if (c == '-' || c == '¬') && d == '\n' then trimSub1 rest
    else c :: trimSub1 (d :: rest)

/-- `re.sub(r'¬\s*', '', text)` as a one-pass scanner: a `¬` starts a match
that greedily also removes following whitespace; the flag records whether we
are inside the `\s*` part of a match. -/
def trimSub2 : Bool → List Char → List Char
  | _, [] => []
  | skipping, c :: rest =>
    if c == '¬' then trimSub2 true rest
    else if skipping && pyWs c then trimSub2 true rest
    else c :: trimSub2 false rest

/-- `trim_hyphens`. -/
def trim_hyphens (s : String) : String :=
  ⟨trimSub2 false (trimSub1 s.data)⟩

/-! ## `add_header_spacing`

```python
def add_header_spacing(text):
    return re.sub(r'^(--- Page \d+ --+)(\r?\n)?', r'\1\n\n', text,
                  flags=re.MULTILINE)
```

In multiline mode `^` matches only at the start of the text or right after a
`\n`, and the pattern cannot match anywhere else, so the substitution is
equivalently computed per `\n`-separated line.  A match consumes the marker
group and, when the marker group reaches the end of the line, also the line's
`\n` terminator (and a preceding `\r`, via `(\r?\n)?`); the replacement is
the marker followed by two newlines. -/

/-- Split at every `'\n'` (the separators are consumed); `splitNl` of a text
with `k` newlines has `k + 1` entries. -/
def splitNl : List Char → List (List Char)
  | [] => [[]]
  | c :: rest =>
    if c = '\n' then [] :: splitNl rest
    else
      match splitNl rest with
      | [] => [[c]]
      | l :: ls => (c :: l) :: ls

/-- The literal part `--- Page ` of the marker pattern. -/
def pageLit : List Char := '-' :: '-' :: '-' :: ' ' :: 'P' :: 'a' :: 'g' :: 'e' :: [' ']

/-- Parse the group `(--- Page \d+ --+)` at the start of a line: the literal
`--- Page `, one-or-more digits (greedy), a space, then two-or-more hyphens
(greedy).  Returns the matched group and the rest of the line.  (`\d` is
modelled as the ASCII digits; CPython's `\d` also accepts other Unicode
decimal digits, which no claim exercises.) -/
def pMarker (cs : List Char) : Option (List Char × List Char) :=
  if pageLit.isPrefixOf cs then
    let r1 := cs.drop 9
    let ds := r1.takeWhile (·.isDigit)
    if ds.isEmpty then none
    else
      match r1.drop ds.length with
      | ' ' :: r2 =>
        let hs := r2.takeWhile (· == '-')
        if 2 ≤ hs.length then some (pageLit ++ ds ++ ' ' :: hs, r2.drop hs.length)
        else none
      | _ => none
  else none

/-- Substitution on a line that is followed by a `'\n'` separator: when the
marker group ends the line, `(\r?\n)?` consumes the separator (and a line-final
`\r`), so the replacement's `\n\n` stands alone; otherwise the rest of the
line and the separator remain. -/
def procMid (l : List Char) : List Char :=
  match pMarker l with
  | none => l ++ ['\n']
  | some (m, r) =>
    if r = [] ∨ r = ['\r'] then m ++ ['\n', '\n']
    else m ++ '\n' :: '\n' :: r ++ ['\n']

/-- Substitution on the final line (no `'\n'` follows, so `(\r?\n)?` is empty). -/
def procLast (l : List Char) : List Char :=
  match pMarker l with
  | none => l
  | some (m, r) => m ++ '\n' :: '\n' :: r

/-- The substitution applied to the list of lines. -/
def ahsLines : List (List Char) → List Char
  | [] => []
  | [l] => procLast l
  | l :: ls => procMid l ++ ahsLines ls

/-- `add_header_spacing`. -/
def add_header_spacing (s : String) : String :=
  ⟨ahsLines (splitNl s.data)⟩

/-! ## `reflow_paragraphs`

```python
def reflow_paragraphs(text, width=9999):
    paras = re.split(r'\n\s*\n', text.strip())
    out = []
    for p in paras:
        single = ' '.join(p.split())
        out.append(textwrap.fill(single, width=width))
    return "\n\n".join(out)
```

`textwrap.fill` is embedded below following CPython 3.11's `textwrap.py` with
the default options (`expand_tabs`, `replace_whitespace`, `break_long_words`,
`break_on_hyphens`, `drop_whitespace` all true; no indents;
`max_lines=None`), which is what `textwrap.fill(single, width=width)` uses. -/

/-- Python `str.strip()`. -/
def pyStrip (cs : List Char) : List Char :=
  ((cs.dropWhile pyWs).reverse.dropWhile pyWs).reverse

/-- One attempted match of the separator regex `\n\s*\n` given the text after
a leading `'\n'`: greedy `\s*` followed by a required `\n` means the match
extends to the last `'\n'` inside the maximal whitespace run; returns the
remainder after the match, or `none` when the run has no `'\n'`. -/
def paraSep (rest : List Char) : Option (List Char) :=
  let run := rest.takeWhile pyWs
  if run.contains '\n' then
    some ((run.reverse.takeWhile (· != '\n')).reverse ++ rest.drop run.length)
  else none

/-- `re.split(r'\n\s*\n', text)` as a fuelled left-to-right scanner (each
step consumes at least one character, so fuel `length` is always enough). -/
def paraAux : Nat → List Char → List Char → List (List Char)
  | _, acc, [] => [acc.reverse]
  | 0, acc, c :: rest => [acc.reverse ++ c :: rest]
  | fuel + 1, acc, c :: rest =>
    if c = '\n' then
      match paraSep rest with
      | some rem => acc.reverse :: paraAux fuel [] rem
      | none => paraAux fuel ('\n' :: acc) rest
    else paraAux fuel (c :: acc) rest

/-- `re.split(r'\n\s*\n', text)`. -/
def splitParas (cs : List Char) : List (List Char) :=
  paraAux cs.length [] cs

/-- Python `str.split()` (split on Unicode-whitespace runs, no empties). -/
def wordsAux : List Char → List Char → List (List Char)
  | acc, [] => if acc.isEmpty then [] else [acc.reverse]
  | acc, c :: rest =>
    if pyWs c then
      if acc.isEmpty then wordsAux [] rest else acc.reverse :: wordsAux [] rest
    else wordsAux (c :: acc) rest

/-- Python `str.split()`. -/
def pyWords (cs : List Char) : List (List Char) :=
  wordsAux [] cs

/-- `' '.join(ws)`. -/
def joinSpace : List (List Char) → List Char
  | [] => []
  | [w] => w
  | w :: ws => w ++ ' ' :: joinSpace ws

/-- `' '.join(p.split())`. -/
def collapseWs (cs : List Char) : List Char :=
  joinSpace (pyWords cs)

/-- Python `str.expandtabs(8)`: pad each tab to the next multiple of 8,
tracking the column, which resets after `\n` and `\r`. -/
def expandTabsAux : Nat → List Char → List Char
  | _, [] => []
  | col, c :: rest =>
    if c = '\t' then
      let n := 8 - col % 8
      List.replicate n ' ' ++ expandTabsAux (col + n) rest
    else if c = '\n' ∨ c = '\r' then c :: expandTabsAux 0 rest
    else c :: expandTabsAux (col + 1) rest

/-- `TextWrapper._munge_whitespace`: `expandtabs` then translate each
character of `textwrap._whitespace` to a space. -/
def munge (cs : List Char) : List Char :=
  (expandTabsAux 0 cs).map (fun c => if twWs c then ' ' else c)

/-- `\w` of `textwrap.word_punct` (ASCII model, see `pMarker`'s note). -/
def isWordChar (c : Char) : Bool :=
  c.isAlphanum || c == '_'

/-- textwrap's `letter = [^\d\W]`: a word character that is not a digit. -/
def isLetterChar (c : Char) : Bool :=
  c.isAlpha || c == '_'

/-- textwrap's `word_punct = [\w!"'&.,?]`. -/
def isWordPunct (c : Char) : Bool :=
  isWordChar c || c == '!' || c == '"' || c == '\'' || c == '&' || c == '.' ||
  c == ',' || c == '?'

/-- The lookahead `(?=-{2,}\w)`: at least two hyphens followed by a word
character (the greedy `-{2,}` can only succeed by taking the whole run). -/
def emDashAhead (cs : List Char) : Bool :=
  let hs := cs.takeWhile (· == '-')
  decide (2 ≤ hs.length) &&
    (match cs.drop hs.length with
     | c :: _ => isWordChar c
     | [] => false)

/-- The lookahead `(?=[^\d\W]-?[^\d\W])` of the hyphenated-word branch. -/
def hyphAhead : List Char → Bool
  | a :: b :: c :: _ => isLetterChar a && (isLetterChar b || (b == '-' && isLetterChar c))
  | [a, b] => isLetterChar a && isLetterChar b
  | _ => false

/-- The lookbehinds `(?<=[^\d\W]{2}-)|(?<=[^\d\W]-[^\d\W]-)` of the
hyphenated-word branch, on the reversed consumed text (most recent first). -/
def hyphBehind : List Char → Bool
  | '-' :: x :: y :: more =>
    (isLetterChar x && isLetterChar y) ||
    (isLetterChar x && y == '-' &&
      (match more with
       | z :: _ => isLetterChar z
       | [] => false))
  | _ => false

/-- The lazy word branch `[^ws]+?(?: -(lookbehinds)(lookahead) | (?=[ws]|\Z)
| (?<=word_punct)(?=-{2,}\w) )` of `textwrap.wordsep_re`: consume non-space
characters one at a time (at least one, held in `revAcc`, most recent first)
until the earliest position where one of the three alternatives matches; the
hyphenated-word alternative additionally consumes the hyphen. -/
def wordScan : List Char → List Char → List Char × List Char
  | revAcc, [] => (revAcc.reverse, [])
  | revAcc, r :: rs =>
    if r == '-' && hyphBehind ('-' :: revAcc) && hyphAhead rs then
      (('-' :: revAcc).reverse, rs)
    else if twWs r then (revAcc.reverse, r :: rs)
    else if
        (match revAcc with
         | p :: _ => isWordPunct p
         | [] => false) &&
        emDashAhead (r :: rs) then
      (revAcc.reverse, r :: rs)
    else wordScan (r :: revAcc) rs

/-- One match of `textwrap.wordsep_re` at the current position (`prev` is the
character just before it, for the lookbehind of the em-dash alternative):
whitespace run, em-dash `(?<=word_punct)-{2,}(?=\w)`, or word. -/
def takeChunk (prev : Option Char) (cs : List Char) : List Char × List Char :=
  match cs with
  | [] => ([], [])
  | c :: rest =>
    if twWs c then (cs.takeWhile twWs, cs.dropWhile twWs)
    else if
        (match prev with
         | some p => isWordPunct p
         | none => false) &&
        emDashAhead cs then
      (cs.takeWhile (· == '-'), cs.dropWhile (· == '-'))
    else wordScan [c] rest

/-- Successive `wordsep_re` matches (they tile the text, and every chunk is
non-empty, so fuel `length` is always enough). -/
def chunksAux : Nat → Option Char → List Char → List (List Char)
  | _, _, [] => []
  | 0, _, cs => [cs]
  | fuel + 1, prev, c :: rest =>
    let p := takeChunk prev (c :: rest)
    p.1 :: chunksAux fuel p.1.getLast? p.2

/-- `TextWrapper._split_chunks`: munge, then split into chunks (the empty
strings dropped by `_split` never arise: every match is non-empty and the
matches tile the text). -/
def splitChunks (text : List Char) : List (List Char) :=
  let m := munge text
  chunksAux m.length none m

/-- Python `str.rfind('-', 0, end)` restricted to a prefix already taken. -/
def rfindHyphen (l : List Char) : Option Nat :=
  match l.reverse.findIdx? (· == '-') with
  | some k => some (l.length - 1 - k)
  | none => none

/-- `TextWrapper._handle_long_word` (with `break_long_words` and
`break_on_hyphens` true): returns the piece appended to the current line and
the remainder of the chunk. -/
def handleLongWord (chunk : List Char) (curLen width : Nat) : List Char × List Char :=
  let spaceLeft := if width < 1 then 1 else width - curLen
  let endIdx :=
    if spaceLeft < chunk.length then
      match rfindHyphen (chunk.take spaceLeft) with
      | some h =>
        if 0 < h ∧ (chunk.take h).any (· != '-') then h + 1 else spaceLeft
      | none => spaceLeft
    else spaceLeft
  (chunk.take endIdx, chunk.drop endIdx)

/-- The inner `while chunks:` loop of `_wrap_chunks`: greedily move chunks
onto the current line while they fit.  Returns the line so far, its length,
and the remaining chunks. -/
def fillGreedy (width : Nat) : Nat → List (List Char) → List (List Char) →
    List (List Char) × Nat × List (List Char)
  | curLen, curLine, [] => (curLine, curLen, [])
  | curLen, curLine, ch :: rest =>
    if curLen + ch.length ≤ width then fillGreedy width (curLen + ch.length) (curLine ++ [ch]) rest
    else (curLine, curLen, ch :: rest)

/-- One iteration of the outer `while chunks:` loop of `_wrap_chunks`
(with `max_lines=None` and empty indents): optionally drop a leading
whitespace chunk, fill greedily, break a too-long chunk, drop a trailing
whitespace piece (a single `del`, not a loop), and emit the line if any.
Returns the emitted line (if any) and the remaining chunks. -/
def wrapStep (width : Nat) (hasLines : Bool) (chunks : List (List Char)) :
    Option (List Char) × List (List Char) :=
  match chunks with
  | [] => (none, [])
  | c0 :: crest =>
    let chunks1 := if hasLines && c0.all pyWs then crest else c0 :: crest
    let g := fillGreedy width 0 [] chunks1
    let cur := g.1
    let curLen := g.2.1
    let rem := g.2.2
    let p :=
      match rem with
      | r0 :: rrest =>
        if width < r0.length then
          let hw := handleLongWord r0 curLen width
          (cur ++ [hw.1], hw.2 :: rrest)
        else (cur, r0 :: rrest)
      | [] => (cur, ([] : List (List Char)))
    let cur3 :=
      match p.1.getLast? with
      | some lastCh => if lastCh.all pyWs then p.1.dropLast else p.1
      | none => p.1
    (if cur3.isEmpty then none else some cur3.flatten, p.2)

/-- The outer loop of `_wrap_chunks`, fuelled (each iteration deletes a
chunk, moves a non-empty chunk into an emitted line, or strictly shortens the
first too-long chunk, so `total length + number of chunks` is enough fuel). -/
def wrapAux (width : Nat) : Nat → List (List Char) → List (List Char) → List (List Char)
  | _, lines, [] => lines
  | 0, lines, _ => lines
  | fuel + 1, lines, c :: cs =>
    let s := wrapStep width (!lines.isEmpty) (c :: cs)
    match s.1 with
    | some l => wrapAux width fuel (lines ++ [l]) s.2
    | none => wrapAux width fuel lines s.2

/-- Fuel bound for `wrapAux`. -/
def wrapFuel (chunks : List (List Char)) : Nat :=
  chunks.foldr (fun c n => c.length + 1 + n) 1

/-- `"\n".join(lines)`. -/
def joinNl : List (List Char) → List Char
  | [] => []
  | [l] => l
  | l :: ls => l ++ '\n' :: joinNl ls

/-- `textwrap.fill(text, width)` for a positive width. -/
def fillTW (width : Nat) (text : List Char) : List Char :=
  let chunks := splitChunks text
  joinNl (wrapAux width (wrapFuel chunks) [] chunks)

/-- `"\n\n".join(out)`. -/
def joinPara : List (List Char) → List Char
  | [] => []
  | [l] => l
  | l :: ls => l ++ '\n' :: '\n' :: joinPara ls

/-- The body of `reflow_paragraphs` for a positive width. -/
def reflowCore (text : List Char) (width : Nat) : List Char :=
  joinPara ((splitParas (pyStrip text)).map (fun p => fillTW width (collapseWs p)))

/-- `reflow_paragraphs`; a non-positive width raises `ValueError` inside
`textwrap` (`_wrap_chunks` checks `self.width <= 0` and the paragraph list
returned by `re.split` is never empty, so `fill` is always reached),
modelled as `Except.error` with CPython's message. -/
def reflow_paragraphs (s : String) (width : Int) : Except String String :=
  if width ≤ 0 then Except.error ("invalid width " ++ toString width ++ " (must be > 0)")
  else Except.ok ⟨reflowCore s.data width.toNat⟩

/-- The processing pipeline of `main` after argument parsing: merge, trim,
space, reflow (no validation of `max_check` or `width` happens before or
between the stages). -/
def mainPipeline (frags : List (String × String)) (maxCheck width : Int) :
    Except String String :=
  reflow_paragraphs (add_header_spacing (trim_hyphens (merge_with_overlap frags maxCheck))) width

/-! ## Helper lemmas: `trim_hyphens` -/

/-- The second rewrite never lets a continuation mark through. -/
theorem trimSub2_no_mark (l : List Char) : ∀ b, '¬' ∉ trimSub2 b l := by
  induction l with
  | nil => intro b; simp [trimSub2]
  | cons c rest ih =>
    intro b
    simp only [trimSub2]
    split
    · exact ih true
    · split
      · exact ih true
      · next hne _ =>
        intro hmem
        rcases List.mem_cons.mp hmem with h1 | h2
        · exact hne (by simp [← h1])
        · exact ih false h2

/-- A text with no `-`/`¬` directly before a newline is fixed by the first
rewrite. -/
def hasBreakPair : List Char → Bool
  | [] => false
  | [_] => false
  | c :: d :: rest => ((c == '-' || c == '¬') && d == '\n') || hasBreakPair (d :: rest)

theorem trimSub1_eq_self : ∀ l : List Char, hasBreakPair l = false → trimSub1 l = l
  | [], _ => rfl
  | [c], _ => rfl
  | c :: d :: rest, h => by
    simp only [hasBreakPair, Bool.or_eq_false_iff] at h
    simp only [trimSub1, h.1, if_false]
    exact congrArg (c :: ·) (trimSub1_eq_self (d :: rest) h.2)

/-- A text without continuation marks is fixed by the second rewrite (when no
match is in progress). -/
theorem trimSub2_eq_self : ∀ l : List Char, '¬' ∉ l → trimSub2 false l = l
  | [], _ => rfl
  | c :: rest, h => by
    have hc : (c == '¬') = false := by
      cases hb : c == '¬' with
      | true => exact absurd (by rw [eq_of_beq hb]; exact List.mem_cons_self '¬' rest) h
      | false => rfl
    simp only [trimSub2, hc, Bool.false_eq_true, if_false, Bool.false_and]
    exact congrArg (c :: ·) (trimSub2_eq_self rest (fun hm => h (List.mem_cons_of_mem c hm)))

theorem trimSub1_match (c : Char) (rest : List Char) (h : (c == '-' || c == '¬') = true) :
    trimSub1 (c :: '\n' :: rest) = trimSub1 rest := by
  simp [trimSub1, h]

theorem trimSub1_skip (c d : Char) (rest : List Char)
    (h : ((c == '-' || c == '¬') && d == '\n') = false) :
    trimSub1 (c :: d :: rest) = c :: trimSub1 (d :: rest) := by
  simp [trimSub1, h]

/-- The first rewrite treats `¬` and `-` before a newline identically. -/
theorem trimSub1_swap : ∀ a b : List Char,
    trimSub1 (a ++ '¬' :: '\n' :: b) = trimSub1 (a ++ '-' :: '\n' :: b)
  | [], b => by
    rw [List.nil_append, List.nil_append, trimSub1_match _ _ (by decide),
      trimSub1_match _ _ (by decide)]
  | [c], b => by
    rw [List.cons_append, List.nil_append, List.cons_append, List.nil_append,
      trimSub1_skip c '¬' _ (by simp), trimSub1_skip c '-' _ (by simp),
      trimSub1_match _ _ (by decide), trimSub1_match _ _ (by decide)]
  | c :: d :: a', b => by
    rw [List.cons_append, List.cons_append, List.cons_append, List.cons_append]
    by_cases h : ((c == '-' || c == '¬') && d == '\n') = true
    · have hd : d = '\n' := by
        cases hdn : d == '\n' with
        | true => exact eq_of_beq hdn
        | false => simp [hdn] at h
      subst hd
      have hc : (c == '-' || c == '¬') = true := by
        cases hcn : (c == '-' || c == '¬') with
        | true => rfl
        | false => simp [hcn] at h
      rw [trimSub1_match _ _ hc, trimSub1_match _ _ hc]
      exact trimSub1_swap a' b
    · rw [trimSub1_skip c d _ (by simpa using h), trimSub1_skip c d _ (by simpa using h)]
      exact congrArg (c :: ·) (trimSub1_swap (d :: a') b)

/-! ## Claim theorems: C10, C7, C8 -/

/-- C10: for every input text, the output of `trim_hyphens` contains no
occurrence of the continuation-mark character `¬`. -/
theorem c10_trim_hyphens_no_continuation_mark (s : String) :
    '¬' ∉ (trim_hyphens s).data :=
  trimSub2_no_mark (trimSub1 s.data) false

/-- C7 counterexample: `trim_hyphens` is not idempotent: on `"a--\n\nb"` the
first rewrite removes the second hyphen with its newline and thereby creates
a new hyphen–newline pair, which a second application removes. -/
theorem c7_cex_trim_hyphens_not_idempotent :
    trim_hyphens "a--\n\nb" = "a-\nb" ∧
      trim_hyphens (trim_hyphens "a--\n\nb") ≠ trim_hyphens "a--\n\nb" := by
  constructor
  · decide
  · decide

/-- C7 (amended): `trim_hyphens` is idempotent on every input whose output
contains no `-`/`¬` immediately followed by a line break (its output never
contains `¬` at all, so only a surviving `-`+newline pair can make a second
application differ). -/
theorem c7_trim_hyphens_idempotent_of_no_pair (s : String)
    (h : hasBreakPair (trim_hyphens s).data = false) :
    trim_hyphens (trim_hyphens s) = trim_hyphens s := by
  have hno : '¬' ∉ (trim_hyphens s).data := trimSub2_no_mark (trimSub1 s.data) false
  show (⟨trimSub2 false (trimSub1 (trim_hyphens s).data)⟩ : String) = trim_hyphens s
  rw [trimSub1_eq_self _ h, trimSub2_eq_self _ hno]

/-- C7 witness. -/
theorem c7_witness :
    trim_hyphens (trim_hyphens "exam-\nple text") = trim_hyphens "exam-\nple text" :=
  c7_trim_hyphens_idempotent_of_no_pair "exam-\nple text" (by decide)

/-- C8: a line-terminal continuation mark behaves exactly like a literal
hyphen there, and the broken word of the spec's example is joined. -/
theorem c8_trim_hyphens_hyphen_repair :
    (∀ a b : String, trim_hyphens (a ++ "¬\n" ++ b) = trim_hyphens (a ++ "-\n" ++ b)) ∧
      trim_hyphens "exam-\nple text" = "example text" := by
  constructor
  · intro a b
    show (⟨trimSub2 false (trimSub1 (a ++ "¬\n" ++ b).data)⟩ : String) = _
    have h1 : (a ++ "¬\n" ++ b).data = a.data ++ '¬' :: '\n' :: b.data := by
      simp [String.data_append]
    have h2 : (a ++ "-\n" ++ b).data = a.data ++ '-' :: '\n' :: b.data := by
      simp [String.data_append]
    show _ = (⟨trimSub2 false (trimSub1 (a ++ "-\n" ++ b).data)⟩ : String)
    rw [h1, h2, trimSub1_swap]
  · decide

/-! ## Counterexamples: C2, C4, C5, C6, C9 -/

/-- C2 counterexample: `merge_with_overlap` does not process fragments in
the caller's given order; it sorts them itself.  With the caller passing
`"b"` before `"a"`, the accumulator is seeded with `"a"`'s fragment, not the
caller's first fragment, unlike the order-respecting function written from
the spec's words. -/
theorem c2_cex_merge_sorts_not_caller_order :
    merge_with_overlap [("b", "abc"), ("a", "xyz")] 500 = "xyzabc" ∧
      mergeWithOverlapGivenOrder [("b", "abc"), ("a", "xyz")] 500 = "abcxyz" ∧
      ("xyzabc" : String) ≠ "abcxyz" := by
  refine ⟨by decide, by decide, by decide⟩

/-- C4 counterexample: an input whose marker is already followed by a blank
line is **not** left unchanged — `add_header_spacing` unconditionally
replaces the marker's line break by two newlines, so the already-spaced
example gains a third newline, and a second application differs from the
first. -/
theorem c4_cex_add_header_spacing_not_idempotent :
    add_header_spacing "--- Page 3 ---\n\nBody text" = "--- Page 3 ---\n\n\nBody text" ∧
      add_header_spacing "--- Page 3 ---\n\nBody text" ≠ "--- Page 3 ---\n\nBody text" ∧
      add_header_spacing (add_header_spacing "--- Page 3 ---\nBody text") ≠
        add_header_spacing "--- Page 3 ---\nBody text" := by
  refine ⟨by decide, by decide, by decide⟩

/-- C5 counterexample: a line with only two trailing hyphens **is** treated
as a page marker (the pattern's tail is `--+`, two-or-more), while a line
with four leading hyphens is **not** (the pattern's head is exactly
`--- `). -/
theorem c5_cex_marker_pattern :
    add_header_spacing "--- Page 3 --\nX" = "--- Page 3 --\n\nX" ∧
      add_header_spacing "--- Page 3 --\nX" ≠ "--- Page 3 --\nX" ∧
      add_header_spacing "---- Page 3 ---\nX" = "---- Page 3 ---\nX" := by
  refine ⟨by decide, by decide, by decide⟩

/-- C6 counterexample: `reflow_paragraphs` is not idempotent for every
positive width: at width 2, `textwrap`'s long-word breaking can leave a line
with a trailing space (`"a \naa\na"`), which a second pass removes. -/
theorem c6_cex_reflow_not_idempotent :
    reflow_paragraphs "a aaa" 2 = Except.ok "a \naa\na" ∧
      reflow_paragraphs "a \naa\na" 2 = Except.ok "a\naa\na" ∧
      ("a\naa\na" : String) ≠ "a \naa\na" :=
  ⟨rfl, rfl, by decide⟩

/-- C9 counterexample: a non-positive `--max-check` is not rejected — with
`max_check = 0` the whole pipeline runs and produces fully processed output
(the merge stage concatenates, the trim stage joins the broken word). -/
theorem c9_cex_nonpositive_max_check_not_rejected :
    mainPipeline [("a", "ab-\ncd"), ("b", "cdef")] 0 9999 = Except.ok "abcdcdef" :=
  rfl

/-! ## Helper lemmas: `merge_with_overlap` -/

theorem pysliceFrom_neg (m : List Char) (k : Nat) (hk : 0 < k) :
    pysliceFrom m (-(k : Int)) = m.drop (m.length - k) := by
  have h : ¬(0 ≤ -(k : Int)) := by omega
  simp [pysliceFrom, h]

theorem pysliceTo_nat (t : List Char) (k : Nat) : pysliceTo t (k : Int) = t.take k := by
  simp [pysliceTo]

theorem findOverlap_some_spec (tl hd : List Char) :
    ∀ n i, findOverlap tl hd n = some i →
      1 ≤ i ∧ i ≤ n ∧ (hd.take i).isSuffixOf tl = true ∧
        ∀ j, i < j → j ≤ n → (hd.take j).isSuffixOf tl = false := by
  intro n
  induction n with
  | zero => intro i h; simp [findOverlap] at h
  | succ n ih =>
    intro i h
    by_cases hs : (hd.take (n + 1)).isSuffixOf tl = true
    · rw [findOverlap, if_pos hs] at h
      obtain rfl : n + 1 = i := Option.some.inj h
      exact ⟨by omega, Nat.le_refl _, hs, fun j hj1 hj2 => by omega⟩
    · rw [findOverlap, if_neg hs] at h
      obtain ⟨h1, h2, h3, h4⟩ := ih i h
      refine ⟨h1, by omega, h3, fun j hj1 hj2 => ?_⟩
      rcases Nat.lt_or_ge j (n + 1) with hlt | hge
      · exact h4 j hj1 (by omega)
      · obtain rfl : j = n + 1 := by omega
        exact Bool.eq_false_iff.mpr hs
  
theorem findOverlap_none_spec (tl hd : List Char) :
    ∀ n, findOverlap tl hd n = none →
      ∀ j, 1 ≤ j → j ≤ n → (hd.take j).isSuffixOf tl = false := by
  intro n
  induction n with
  | zero => intro _ j hj1 hj2; omega
  | succ n ih =>
    intro h j hj1 hj2
    by_cases hs : (hd.take (n + 1)).isSuffixOf tl = true
    · rw [findOverlap, if_pos hs] at h; exact absurd h (by simp)
    · rw [findOverlap, if_neg hs] at h
      rcases Nat.lt_or_ge j (n + 1) with hlt | hge
      · exact ih h j hj1 (by omega)
      · obtain rfl : j = n + 1 := by omega
        exact Bool.eq_false_iff.mpr hs

/-! ## Claim theorems: C1, C3 -/

/-- C1: for a non-empty accumulator `m` and positive window `k`, one merge
step appends `t` with its first `i` characters dropped, where `i` is the
largest value in `[1, min k (length t)]` such that the length-`i` prefix of
the head (the first `k` characters of `t`) is a suffix of the tail (the
last `k` characters of `m`); when no such `i` exists (in particular for an
empty fragment) `t` is appended unmodified; both windows clip to the
available length. -/
theorem c1_merge_step_longest_overlap (m t : List Char) (k : Nat)
    (_hm : m ≠ []) (hk : 0 < k) :
    (∃ i, 1 ≤ i ∧ i ≤ min k t.length ∧
        ((t.take k).take i).isSuffixOf (m.drop (m.length - k)) = true ∧
        (∀ j, i < j → j ≤ min k t.length →
          ((t.take k).take j).isSuffixOf (m.drop (m.length - k)) = false) ∧
        mergeStep m t (k : Int) = m ++ t.drop i) ∨
      ((∀ j, 1 ≤ j → j ≤ min k t.length →
          ((t.take k).take j).isSuffixOf (m.drop (m.length - k)) = false) ∧
        mergeStep m t (k : Int) = m ++ t) := by
  have htl : pysliceFrom m (-(k : Int)) = m.drop (m.length - k) := pysliceFrom_neg m k hk
  have hhd : pysliceTo t (k : Int) = t.take k := pysliceTo_nat t k
  have hlen : (t.take k).length = min k t.length := List.length_take k t
  rcases hfo : findOverlap (m.drop (m.length - k)) (t.take k) ((t.take k).length)
    with _ | i
  · right
    have hspec := findOverlap_none_spec _ _ _ hfo
    refine ⟨fun j hj1 hj2 => hspec j hj1 (hlen ▸ hj2), ?_⟩
    show (match findOverlap (pysliceFrom m (-(k : Int))) (pysliceTo t (k : Int))
        (pysliceTo t (k : Int)).length with
      | some i => m ++ t.drop i
      | none => m ++ t) = m ++ t
    rw [htl, hhd, hfo]
  · left
    obtain ⟨h1, h2, h3, h4⟩ := findOverlap_some_spec _ _ _ _ hfo
    refine ⟨i, h1, hlen ▸ h2, h3, fun j hj1 hj2 => h4 j hj1 (hlen ▸ hj2), ?_⟩
    show (match findOverlap (pysliceFrom m (-(k : Int))) (pysliceTo t (k : Int))
        (pysliceTo t (k : Int)).length with
      | some i => m ++ t.drop i
      | none => m ++ t) = m ++ t.drop i
    rw [htl, hhd, hfo]

/-- C1 witness: `m = "abc"`, `t = "bcd"`, `k = 2`. -/
theorem c1_witness :
    (∃ i, 1 ≤ i ∧ i ≤ min 2 ("bcd".data.length) ∧
        (("bcd".data.take 2).take i).isSuffixOf ("abc".data.drop ("abc".data.length - 2)) = true ∧
        (∀ j, i < j → j ≤ min 2 ("bcd".data.length) →
          (("bcd".data.take 2).take j).isSuffixOf ("abc".data.drop ("abc".data.length - 2)) = false) ∧
        mergeStep "abc".data "bcd".data (2 : Int) = "abc".data ++ "bcd".data.drop i) ∨
      ((∀ j, 1 ≤ j → j ≤ min 2 ("bcd".data.length) →
          (("bcd".data.take 2).take j).isSuffixOf ("abc".data.drop ("abc".data.length - 2)) = false) ∧
        mergeStep "abc".data "bcd".data (2 : Int) = "abc".data ++ "bcd".data) :=
  c1_merge_step_longest_overlap "abc".data "bcd".data 2 (by decide) (by decide)

theorem mergeStep_length_le (m t : List Char) (mc : Int) :
    (mergeStep m t mc).length ≤ m.length + t.length := by
  show (match findOverlap (pysliceFrom m (-mc)) (pysliceTo t mc) (pysliceTo t mc).length with
    | some i => m ++ t.drop i
    | none => m ++ t).length ≤ m.length + t.length
  split <;> simp only [List.length_append, List.length_drop] <;> omega

theorem mergeLoop_length_le (mc : Int) :
    ∀ (l : List (String × String)) (acc : List Char),
      (mergeLoop mc acc l).length ≤ acc.length + (l.map (fun f => f.2.data.length)).sum := by
  intro l
  induction l with
  | nil => intro acc; simp [mergeLoop]
  | cons f rest ih =>
    intro acc
    rw [mergeLoop]
    split
    · calc (mergeLoop mc f.2.data rest).length
          ≤ f.2.data.length + (rest.map (fun f => f.2.data.length)).sum := ih f.2.data
        _ ≤ acc.length + ((f :: rest).map (fun f => f.2.data.length)).sum := by
            simp only [List.map_cons, List.sum_cons]; omega
    · calc (mergeLoop mc (mergeStep acc f.2.data mc) rest).length
          ≤ (mergeStep acc f.2.data mc).length + (rest.map (fun f => f.2.data.length)).sum :=
            ih _
        _ ≤ (acc.length + f.2.data.length) + (rest.map (fun f => f.2.data.length)).sum := by
            have := mergeStep_length_le acc f.2.data mc
            omega
        _ = acc.length + ((f :: rest).map (fun f => f.2.data.length)).sum := by
            simp only [List.map_cons, List.sum_cons]; omega

theorem insertSorted_perm (x : String × String) :
    ∀ l : List (String × String), (insertSorted x l).Perm (x :: l) := by
  intro l
  induction l with
  | nil => simp [insertSorted]
  | cons y ys ih =>
    rw [insertSorted]
    split
    · exact List.Perm.refl _
    · exact (ih.cons y).trans (List.Perm.swap x y ys)

theorem pySorted_perm : ∀ l : List (String × String), (pySorted l).Perm l := by
  intro l
  induction l with
  | nil => exact List.Perm.refl _
  | cons a l ih =>
    show (insertSorted a (pySorted l)).Perm (a :: l)
    exact (insertSorted_perm a (pySorted l)).trans (ih.cons a)

/-- C3: for every non-empty fragment sequence and positive `maxCheck`, the
merged output is no longer than the sum of the fragment lengths. -/
theorem c3_merge_length_le_sum (frags : List (String × String)) (mc : Int)
    (_h1 : frags ≠ []) (_h2 : 0 < mc) :
    (merge_with_overlap frags mc).length ≤ (frags.map (fun f => f.2.length)).sum := by
  have hperm : ((pySorted frags).map (fun f => f.2.data.length)).Perm
      (frags.map (fun f => f.2.data.length)) :=
    (pySorted_perm frags).map _
  have hlen : ∀ l : List (String × String),
      (l.map (fun f => f.2.length)).sum = (l.map (fun f => f.2.data.length)).sum := by
    intro l; rfl
  calc (merge_with_overlap frags mc).length
      = (mergeLoop mc [] (pySorted frags)).length := rfl
    _ ≤ [].length + ((pySorted frags).map (fun f => f.2.data.length)).sum :=
        mergeLoop_length_le mc (pySorted frags) []
    _ = ((pySorted frags).map (fun f => f.2.data.length)).sum := by simp
    _ = (frags.map (fun f => f.2.data.length)).sum := hperm.sum_eq
    _ = (frags.map (fun f => f.2.length)).sum := (hlen frags).symm

/-- C3 witness. -/
theorem c3_witness :
    (merge_with_overlap [("a", "abx"), ("b", "bxcd")] 3).length ≤
      ([("a", "abx"), ("b", "bxcd")].map
        (fun f : String × String => f.2.length)).sum :=
  c3_merge_length_le_sum [("a", "abx"), ("b", "bxcd")] 3 (by decide) (by decide)

/-! ## Claim theorem: C9 (amended) -/

/-- C9 (amended): no validation of the configuration happens before
processing.  A non-positive width is rejected only inside the reflow stage
(`textwrap` raises `ValueError` there), after merge, trim and spacing have
already run; for any positive width the pipeline always succeeds, whatever
`maxCheck` is — non-positive `maxCheck` values are accepted with Python's
slice semantics for the windows. -/
theorem c9_no_early_validation (frags : List (String × String)) (mc w : Int) :
    (w ≤ 0 → mainPipeline frags mc w =
      Except.error ("invalid width " ++ toString w ++ " (must be > 0)")) ∧
      (0 < w → ∃ s, mainPipeline frags mc w = Except.ok s) := by
  constructor
  · intro h
    simp [mainPipeline, reflow_paragraphs, h]
  · intro h
    refine ⟨⟨reflowCore (add_header_spacing (trim_hyphens (merge_with_overlap frags mc))).data
      w.toNat⟩, ?_⟩
    show reflow_paragraphs _ w = _
    rw [reflow_paragraphs, if_neg (by omega)]

/-- C9 witness. -/
theorem c9_witness :
    mainPipeline [("a", "xy")] 5 (-1) =
        Except.error ("invalid width " ++ toString (-1 : Int) ++ " (must be > 0)") ∧
      ∃ s, mainPipeline [("a", "xy")] 5 1 = Except.ok s :=
  ⟨(c9_no_early_validation [("a", "xy")] 5 (-1)).1 (by decide),
    (c9_no_early_validation [("a", "xy")] 5 1).2 (by decide)⟩

/-! ## Helper lemmas: the sort in `merge_with_overlap` -/

theorem charToNat_inj {a b : Char} (h : a.toNat = b.toNat) : a = b :=
  Char.ext (UInt32.toNat.inj h)

theorem keyLe_total : ∀ a b : List Char, keyLe a b = true ∨ keyLe b a = true
  | [], b => Or.inl rfl
  | a :: as, [] => Or.inr rfl
  | a :: as, b :: bs => by
    by_cases h : a.toNat = b.toNat
    · rcases keyLe_total as bs with h1 | h1
      · exact Or.inl (by simp [keyLe, h, h1])
      · exact Or.inr (by simp [keyLe, h.symm, h1])
    · rcases Nat.lt_or_ge a.toNat b.toNat with hlt | hge
      · exact Or.inl (by simp [keyLe, h, hlt])
      · have hlt : b.toNat < a.toNat := by omega
        refine Or.inr ?_
        rw [keyLe, if_neg (fun he => h he.symm)]
        exact decide_eq_true hlt

theorem keyLe_antisymm : ∀ a b : List Char, keyLe a b = true → keyLe b a = true → a = b
  | [], [], _, _ => rfl
  | [], b :: bs, _, h2 => by simp [keyLe] at h2
  | a :: as, [], h1, _ => by simp [keyLe] at h1
  | a :: as, b :: bs, h1, h2 => by
    by_cases h : a.toNat = b.toNat
    · have ha : a = b := charToNat_inj h
      rw [keyLe, if_pos h] at h1
      rw [keyLe, if_pos h.symm] at h2
      rw [ha, keyLe_antisymm as bs h1 h2]
    · rw [keyLe, if_neg h] at h1
      rw [keyLe, if_neg (fun he => h he.symm)] at h2
      have := of_decide_eq_true h1
      have := of_decide_eq_true h2
      omega

theorem keyLe_trans : ∀ a b c : List Char,
    keyLe a b = true → keyLe b c = true → keyLe a c = true
  | [], _, _, _, _ => rfl
  | a :: as, [], c, h1, _ => by simp [keyLe] at h1
  | a :: as, b :: bs, [], _, h2 => by simp [keyLe] at h2
  | a :: as, b :: bs, c :: cs, h1, h2 => by
    by_cases hab : a.toNat = b.toNat <;> by_cases hbc : b.toNat = c.toNat
    · rw [keyLe, if_pos hab] at h1
      rw [keyLe, if_pos hbc] at h2
      rw [keyLe, if_pos (hab.trans hbc)]
      exact keyLe_trans as bs cs h1 h2
    · rw [keyLe, if_neg hbc] at h2
      have := of_decide_eq_true h2
      rw [keyLe, if_neg (by omega)]
      exact decide_eq_true (by omega)
    · rw [keyLe, if_neg hab] at h1
      have := of_decide_eq_true h1
      rw [keyLe, if_neg (by omega)]
      exact decide_eq_true (by omega)
    · rw [keyLe, if_neg hab] at h1
      rw [keyLe, if_neg hbc] at h2
      have := of_decide_eq_true h1
      have := of_decide_eq_true h2
      rw [keyLe, if_neg (by omega)]
      exact decide_eq_true (by omega)

/-- The ordering used on fragments. -/
def fragLe (a b : String × String) : Prop :=
  keyLe a.1.data b.1.data = true

theorem mem_insertSorted {z x : String × String} :
    ∀ {l : List (String × String)}, z ∈ insertSorted x l → z = x ∨ z ∈ l := by
  intro l
  induction l with
  | nil => intro h; simpa [insertSorted] using h
  | cons y ys ih =>
    intro h
    rw [insertSorted] at h
    split at h
    · rcases List.mem_cons.mp h with h | h
      · exact Or.inl h
      · exact Or.inr h
    · rcases List.mem_cons.mp h with h | h
      · exact Or.inr (h ▸ List.mem_cons_self y ys)
      · rcases ih h with h | h
        · exact Or.inl h
        · exact Or.inr (List.mem_cons_of_mem y h)

theorem insertSorted_pairwise (x : String × String) :
    ∀ l : List (String × String), l.Pairwise fragLe →
      (insertSorted x l).Pairwise fragLe := by
  intro l
  induction l with
  | nil => intro _; simp [insertSorted, List.Pairwise]
  | cons y ys ih =>
    intro h
    obtain ⟨hy, hys⟩ := List.pairwise_cons.mp h
    rw [insertSorted]
    split
    · next hle =>
      refine List.pairwise_cons.mpr ⟨?_, h⟩
      intro z hz
      rcases List.mem_cons.mp hz with rfl | hz
      · exact hle
      · exact keyLe_trans _ _ _ hle (hy z hz)
    · next hnle =>
      refine List.pairwise_cons.mpr ⟨?_, ih hys⟩
      intro z hz
      rcases mem_insertSorted hz with rfl | hz
      · rcases keyLe_total y.1.data z.1.data with h1 | h1
        · exact h1
        · exact absurd h1 (by simpa using hnle)
      · exact hy z hz

theorem pySorted_pairwise : ∀ l : List (String × String), (pySorted l).Pairwise fragLe := by
  intro l
  induction l with
  | nil => simp [pySorted]
  | cons a l ih => exact insertSorted_pairwise a (pySorted l) ih

/-- Two sorted lists that are permutations of each other and have pairwise
distinct identifiers are equal. -/
theorem eq_of_pairwise_perm_nodup :
    ∀ (l₁ l₂ : List (String × String)), l₁.Perm l₂ →
      l₁.Pairwise fragLe → l₂.Pairwise fragLe → (l₁.map Prod.fst).Nodup → l₁ = l₂
  | [], l₂, hp, _, _, _ => hp.nil_eq
  | x :: r₁, [], hp, _, _, _ => by
    exact absurd hp.symm.nil_eq (by simp)
  | x :: r₁, y :: r₂, hp, hs₁, hs₂, hnd => by
    have hnd' : x.1 ∉ r₁.map Prod.fst ∧ (r₁.map Prod.fst).Nodup := by
      rw [List.map_cons] at hnd
      exact List.nodup_cons.mp hnd
    have hxy : x = y := by
      have hx2 : x ∈ y :: r₂ := hp.mem_iff.mp (List.mem_cons_self x r₁)
      rcases List.mem_cons.mp hx2 with h | hxr₂
      · exact h
      · have hy1 : y ∈ x :: r₁ := hp.symm.mem_iff.mp (List.mem_cons_self y r₂)
        rcases List.mem_cons.mp hy1 with h | hyr₁
        · exact h.symm
        · have h1 : fragLe y x := (List.pairwise_cons.mp hs₂).1 x hxr₂
          have h2 : fragLe x y := (List.pairwise_cons.mp hs₁).1 y hyr₁
          have hkey : x.1 = y.1 := String.ext (keyLe_antisymm _ _ h2 h1)
          have : x.1 ∈ r₁.map Prod.fst := by
            rw [hkey]
            exact List.mem_map_of_mem Prod.fst hyr₁
          exact absurd this hnd'.1
    subst hxy
    have htl : r₁ = r₂ :=
      eq_of_pairwise_perm_nodup r₁ r₂ hp.cons_inv hs₁.of_cons hs₂.of_cons hnd'.2
    rw [htl]

/-! ## Claim theorem: C2 (amended) -/

/-- C2 (amended): `merge_with_overlap` itself sorts the fragments by their
source identifier and processes them in that sorted order; the caller's
ordering of the input sequence is irrelevant — any permutation of a fragment
list with pairwise-distinct identifiers merges to the same output. -/
theorem c2_merge_ignores_caller_order (l₁ l₂ : List (String × String)) (mc : Int)
    (hperm : l₁.Perm l₂) (hnd : (l₁.map Prod.fst).Nodup) :
    merge_with_overlap l₁ mc = merge_with_overlap l₂ mc := by
  have hsort : pySorted l₁ = pySorted l₂ := by
    refine eq_of_pairwise_perm_nodup _ _ ?_ (pySorted_pairwise l₁) (pySorted_pairwise l₂) ?_
    · exact (pySorted_perm l₁).trans (hperm.trans (pySorted_perm l₂).symm)
    · exact (((pySorted_perm l₁).map Prod.fst).symm.nodup hnd)
  rw [merge_with_overlap, merge_with_overlap, hsort]

/-- C2 witness. -/
theorem c2_witness :
    merge_with_overlap [("b", "bbb"), ("a", "aaa")] 500 =
      merge_with_overlap [("a", "aaa"), ("b", "bbb")] 500 :=
  c2_merge_ignores_caller_order [("b", "bbb"), ("a", "aaa")] [("a", "aaa"), ("b", "bbb")] 500
    (List.Perm.swap ("a", "aaa") ("b", "bbb") []) (by decide)

/-! ## Helper lemmas: `add_header_spacing` -/

theorem splitNl_ne_nil : ∀ l : List Char, splitNl l ≠ [] := by
  intro l
  induction l with
  | nil => simp [splitNl]
  | cons c rest ih =>
    rw [splitNl]
    split
    · simp
    · rcases h : splitNl rest with _ | ⟨a, as⟩
      · simp
      · simp [h]

theorem splitNl_append : ∀ l rest : List Char, (∀ c ∈ l, c ≠ '\n') →
    splitNl (l ++ '\n' :: rest) = l :: splitNl rest
  | [], rest, _ => by simp [splitNl]
  | c :: l', rest, h => by
    have hc : c ≠ '\n' := h c (List.mem_cons_self c l')
    rw [List.cons_append, splitNl, if_neg hc,
      splitNl_append l' rest (fun x hx => h x (List.mem_cons_of_mem c hx))]

theorem ahsLines_cons (l : List Char) (ls : List (List Char)) (h : ls ≠ []) :
    ahsLines (l :: ls) = procMid l ++ ahsLines ls := by
  rcases ls with _ | ⟨a, as⟩
  · exact absurd rfl h
  · rfl

theorem isPrefixOf_append_self : ∀ l r : List Char, l.isPrefixOf (l ++ r) = true := by
  intro l r
  induction l with
  | nil => simp [List.isPrefixOf]
  | cons c l' ih => simp [List.isPrefixOf, ih]

theorem takeWhile_all (p : Char → Bool) :
    ∀ l : List Char, (∀ c ∈ l, p c = true) → l.takeWhile p = l
  | [], _ => rfl
  | c :: l', h => by
    rw [List.takeWhile_cons, if_pos (h c (List.mem_cons_self c l')),
      takeWhile_all p l' (fun x hx => h x (List.mem_cons_of_mem c hx))]

theorem takeWhile_app (p : Char → Bool) :
    ∀ (l : List Char) (x : Char) (r : List Char), (∀ c ∈ l, p c = true) → p x = false →
      (l ++ x :: r).takeWhile p = l
  | [], x, r, _, hx => by simp [List.takeWhile_cons, hx]
  | c :: l', x, r, hl, hx => by
    rw [List.cons_append, List.takeWhile_cons, if_pos (hl c (List.mem_cons_self c l')),
      takeWhile_app p l' x r (fun y hy => hl y (List.mem_cons_of_mem c hy)) hx]

/-- Computation of the marker parser on a line consisting of the literal,
digits, a space, a hyphen run, and a rest that does not extend the run. -/
theorem pMarker_pos (d hs r : List Char) (hd : d ≠ [])
    (hdig : ∀ c ∈ d, c.isDigit = true) (hh : ∀ c ∈ hs, c = '-') (hlen : 2 ≤ hs.length)
    (hr : ∀ c ∈ r.take 1, (c == '-') = false) :
    pMarker (pageLit ++ (d ++ ' ' :: (hs ++ r))) =
      some (pageLit ++ d ++ ' ' :: hs, r) := by
  have hpre : pageLit.isPrefixOf (pageLit ++ (d ++ ' ' :: (hs ++ r))) = true :=
    isPrefixOf_append_self _ _
  have hdrop9 : (pageLit ++ (d ++ ' ' :: (hs ++ r))).drop 9 = d ++ ' ' :: (hs ++ r) := by
    have : (9 : Nat) = pageLit.length := rfl
    rw [this, List.drop_left]
  have htw : (d ++ ' ' :: (hs ++ r)).takeWhile (·.isDigit) = d :=
    takeWhile_app _ d ' ' (hs ++ r) hdig (by decide)
  have hdropd : (d ++ ' ' :: (hs ++ r)).drop d.length = ' ' :: (hs ++ r) :=
    List.drop_left d _
  have hhs : (hs ++ r).takeWhile (· == '-') = hs := by
    rcases r with _ | ⟨c, r'⟩
    · rw [List.append_nil]
      exact takeWhile_all _ hs (fun c hc => by rw [hh c hc]; rfl)
    · exact takeWhile_app _ hs c r' (fun c hc => by rw [hh c hc]; rfl)
        (hr c (by simp [List.take]))
  have hdrophs : (hs ++ r).drop hs.length = r := List.drop_left hs r
  rw [pMarker, if_pos hpre]
  simp only [hdrop9, htw, hdropd, List.isEmpty_iff, hhs, hdrophs]
  rw [if_neg hd, if_pos hlen]

theorem pMarker_four_hyphens (x : List Char) :
    pMarker ('-' :: '-' :: '-' :: '-' :: x) = none := by
  have : pageLit.isPrefixOf ('-' :: '-' :: '-' :: '-' :: x) = false := by
    simp [pageLit, List.isPrefixOf]
  rw [pMarker, this]
  simp

/-! ## Claim theorems: C4 (amended), C5 (amended) -/

/-- C4 (amended): `add_header_spacing` inserts the blank line after a
page-marker line unconditionally, replacing the marker's line terminator by
two newlines whether or not a blank line already follows (so an already
spaced marker gains a further newline and the function is not idempotent).
The general equation below holds for every tail `t`, including tails that
already begin with a blank line, and the concrete conjunct shows the
already-spaced example gaining a third newline. -/
theorem c4_add_header_spacing_unconditional :
    (∀ (d : List Char) (t : String), d ≠ [] → (∀ c ∈ d, c.isDigit = true) →
      add_header_spacing ("--- Page " ++ ⟨d⟩ ++ " ---\n" ++ t) =
        "--- Page " ++ ⟨d⟩ ++ " ---\n\n" ++ add_header_spacing t) ∧
      add_header_spacing "--- Page 3 ---\n\nBody text" = "--- Page 3 ---\n\n\nBody text" := by
  constructor
  · intro d t hd hdig
    apply String.ext
    have hdata : ("--- Page " ++ (⟨d⟩ : String) ++ " ---\n" ++ t).data =
        (pageLit ++ (d ++ ' ' :: ('-' :: '-' :: '-' :: []))) ++ '\n' :: t.data := by
      simp [String.data_append, pageLit]
    have hnl : ∀ c ∈ pageLit ++ (d ++ ' ' :: ('-' :: '-' :: '-' :: [])), c ≠ '\n' := by
      intro c hc
      rcases List.mem_append.mp hc with h | h
      · exact (by decide : ∀ x ∈ pageLit, x ≠ '\n') c h
      · rcases List.mem_append.mp h with h | h
        · intro he
          subst he
          exact absurd (hdig '\n' h) (by decide)
        · exact (by decide : ∀ x ∈ (' ' :: '-' :: '-' :: '-' :: ([] : List Char)), x ≠ '\n') c h
    show (ahsLines (splitNl _)) = _
    rw [hdata, splitNl_append _ _ hnl,
      ahsLines_cons _ _ (splitNl_ne_nil t.data)]
    have hmid : procMid (pageLit ++ (d ++ ' ' :: ('-' :: '-' :: '-' :: []))) =
        (pageLit ++ (d ++ ' ' :: ('-' :: '-' :: '-' :: []))) ++ ['\n', '\n'] := by
      have hp := pMarker_pos d ['-', '-', '-'] [] hd hdig (by decide) (by decide) (by decide)
      rw [List.append_nil] at hp
      rw [procMid, hp]
      simp [List.append_assoc]
    rw [hmid]
    simp [String.data_append, pageLit, add_header_spacing]
  · decide

/-- C4 witness. -/
theorem c4_witness :
    add_header_spacing ("--- Page " ++ (⟨['3']⟩ : String) ++ " ---\n" ++ "\nBody") =
      "--- Page " ++ (⟨['3']⟩ : String) ++ " ---\n\n" ++ add_header_spacing "\nBody" :=
  c4_add_header_spacing_unconditional.1 ['3'] "\nBody" (by decide) (by decide)

/-- C5 (amended): the marker pattern accepted by `add_header_spacing` has
exactly three leading hyphens and two-or-more trailing hyphens: every line
`--- Page <digits> ` followed by `2 + k` hyphens is rewritten (so two
trailing hyphens suffice), while no line starting with four hyphens ever
matches (the literal head of the pattern is `--- ` with exactly three). -/
theorem c5_marker_pattern_amended :
    (∀ (d : List Char) (k : Nat) (t : String), d ≠ [] → (∀ c ∈ d, c.isDigit = true) →
      add_header_spacing ((⟨pageLit ++ d ++ ' ' :: List.replicate (2 + k) '-'⟩ : String) ++
          "\n" ++ t) =
        (⟨pageLit ++ d ++ ' ' :: List.replicate (2 + k) '-'⟩ : String) ++ "\n\n" ++
          add_header_spacing t) ∧
      (∀ (x t : String), (∀ c ∈ x.data, c ≠ '\n') →
        add_header_spacing ("----" ++ x ++ "\n" ++ t) =
          "----" ++ x ++ "\n" ++ add_header_spacing t) := by
  constructor
  · intro d k t hd hdig
    apply String.ext
    have hdata : ((⟨pageLit ++ d ++ ' ' :: List.replicate (2 + k) '-'⟩ : String) ++
          "\n" ++ t).data =
        (pageLit ++ (d ++ ' ' :: List.replicate (2 + k) '-')) ++ '\n' :: t.data := by
      simp [String.data_append, List.append_assoc]
    have hnl : ∀ c ∈ pageLit ++ (d ++ ' ' :: List.replicate (2 + k) '-'), c ≠ '\n' := by
      intro c hc
      rcases List.mem_append.mp hc with h | h
      · exact (by decide : ∀ x ∈ pageLit, x ≠ '\n') c h
      · rcases List.mem_append.mp h with h | h
        · intro he
          subst he
          exact absurd (hdig '\n' h) (by decide)
        · rcases List.mem_cons.mp h with h | h
          · simp [h]
          · rw [List.eq_of_mem_replicate h]
            decide
    show (ahsLines (splitNl _)) = _
    rw [hdata, splitNl_append _ _ hnl, ahsLines_cons _ _ (splitNl_ne_nil t.data)]
    have hp := pMarker_pos d (List.replicate (2 + k) '-') [] hd hdig
      (fun c hc => List.eq_of_mem_replicate hc) (by simp) (by decide)
    rw [List.append_nil] at hp
    have hmid : procMid (pageLit ++ (d ++ ' ' :: List.replicate (2 + k) '-')) =
        (pageLit ++ (d ++ ' ' :: List.replicate (2 + k) '-')) ++ ['\n', '\n'] := by
      rw [procMid, hp]
      simp [List.append_assoc]
    rw [hmid]
    simp [String.data_append, add_header_spacing, List.append_assoc]
  · intro x t hx
    apply String.ext
    have hdata : ("----" ++ x ++ "\n" ++ t).data =
        ('-' :: '-' :: '-' :: '-' :: x.data) ++ '\n' :: t.data := by
      simp [String.data_append]
    have hnl : ∀ c ∈ '-' :: '-' :: '-' :: '-' :: x.data, c ≠ '\n' := by
      intro c hc
      rcases List.mem_cons.mp hc with h | h
      · simp [h]
      · rcases List.mem_cons.mp h with h | h
        · simp [h]
        · rcases List.mem_cons.mp h with h | h
          · simp [h]
          · rcases List.mem_cons.mp h with h | h
            · simp [h]
            · exact hx c h
    show (ahsLines (splitNl _)) = _
    rw [hdata, splitNl_append _ _ hnl, ahsLines_cons _ _ (splitNl_ne_nil t.data)]
    rw [procMid, pMarker_four_hyphens x.data]
    simp [String.data_append, add_header_spacing]

/-- C5 witness. -/
theorem c5_witness :
    add_header_spacing ((⟨pageLit ++ ['3'] ++ ' ' :: List.replicate (2 + 0) '-'⟩ : String) ++
          "\n" ++ "X") =
        (⟨pageLit ++ ['3'] ++ ' ' :: List.replicate (2 + 0) '-'⟩ : String) ++ "\n\n" ++
          add_header_spacing "X" ∧
      add_header_spacing ("----" ++ " Page 3 ---" ++ "\n" ++ "X") =
        "----" ++ " Page 3 ---" ++ "\n" ++ add_header_spacing "X" :=
  ⟨c5_marker_pattern_amended.1 ['3'] 0 "X" (by decide) (by decide),
    c5_marker_pattern_amended.2 " Page 3 ---" "X" (by decide)⟩

/-! ## Helper lemmas: `reflow_paragraphs` — words and collapsed singles -/

/-- Auxiliary predicate (specification side): the first character exists and
is not Python whitespace. -/
def headNonWs : List Char → Bool
  | [] => false
  | c :: _ => !pyWs c

theorem twWs_imp_pyWs {c : Char} (h : twWs c = true) : pyWs c = true := by
  rw [twWs] at h
  rcases Bool.or_eq_true_iff.mp h with h | h
  rotate_left
  · rw [pyWs, eq_of_beq h]; decide
  rcases Bool.or_eq_true_iff.mp h with h | h
  rotate_left
  · rw [pyWs, eq_of_beq h]; decide
  rcases Bool.or_eq_true_iff.mp h with h | h
  rotate_left
  · rw [pyWs, eq_of_beq h]; decide
  rcases Bool.or_eq_true_iff.mp h with h | h
  rotate_left
  · rw [pyWs, eq_of_beq h]; decide
  rcases Bool.or_eq_true_iff.mp h with h | h
  · rw [pyWs, eq_of_beq h]; decide
  · rw [pyWs, eq_of_beq h]; decide

/-- Characterisation of a "good" word: non-empty and whitespace-free. -/
def goodWord (w : List Char) : Prop :=
  w ≠ [] ∧ ∀ c ∈ w, pyWs c = false

theorem wordsAux_good : ∀ (l acc : List Char), (∀ c ∈ acc, pyWs c = false) →
    ∀ w ∈ wordsAux acc l, goodWord w
  | [], acc, hacc => by
    intro w hw
    rw [wordsAux] at hw
    split at hw
    · exact absurd hw (List.not_mem_nil w)
    · next hne =>
      rcases List.mem_singleton.mp hw with rfl
      exact ⟨by simpa [List.isEmpty_iff] using hne, fun c hc => hacc c (List.mem_reverse.mp hc)⟩
  | c :: rest, acc, hacc => by
    intro w hw
    rw [wordsAux] at hw
    split at hw
    · next hws =>
      split at hw
      · exact wordsAux_good rest [] (by simp) w hw
      · next hne =>
        rcases List.mem_cons.mp hw with rfl | hw
        · exact ⟨by simpa [List.isEmpty_iff] using hne,
            fun x hx => hacc x (List.mem_reverse.mp hx)⟩
        · exact wordsAux_good rest [] (by simp) w hw
    · next hws =>
      refine wordsAux_good rest (c :: acc) ?_ w hw
      intro x hx
      rcases List.mem_cons.mp hx with rfl | hx
      · exact Bool.eq_false_iff.mpr hws
      · exact hacc x hx

theorem pyWords_good (p : List Char) : ∀ w ∈ pyWords p, goodWord w :=
  wordsAux_good p [] (by simp)

theorem wordsAux_ne_nil : ∀ (l acc : List Char),
    ((∃ c ∈ l, pyWs c = false) ∨ acc ≠ []) → wordsAux acc l ≠ []
  | [], acc, h => by
    rcases h with ⟨c, hc, _⟩ | h
    · exact absurd hc (List.not_mem_nil c)
    · rw [wordsAux, if_neg (by simpa [List.isEmpty_iff] using h)]
      simp
  | c :: rest, acc, h => by
    rw [wordsAux]
    split
    · next hws =>
      split
      · next hemp =>
        refine wordsAux_ne_nil rest [] (Or.inl ?_)
        rcases h with ⟨x, hx, hxw⟩ | hacc
        · rcases List.mem_cons.mp hx with rfl | hx
          · exact absurd hws (by simp [hxw])
          · exact ⟨x, hx, hxw⟩
        · exact absurd (List.isEmpty_iff.mp (by simpa using hemp)) hacc
      · simp
    · next hws =>
      refine wordsAux_ne_nil rest (c :: acc) (Or.inr (by simp))

theorem pyWords_ne_nil (p : List Char) (h : ∃ c ∈ p, pyWs c = false) : pyWords p ≠ [] :=
  wordsAux_ne_nil p [] (Or.inl h)

theorem mem_joinSpace : ∀ (ws : List (List Char)) (c : Char),
    c ∈ joinSpace ws → c = ' ' ∨ ∃ w ∈ ws, c ∈ w
  | [], c, h => absurd h (List.not_mem_nil c)
  | [w], c, h => Or.inr ⟨w, List.mem_singleton.mpr rfl, h⟩
  | w :: w' :: ws', c, h => by
    rcases List.mem_append.mp h with h | h
    · exact Or.inr ⟨w, List.mem_cons_self w _, h⟩
    · rcases List.mem_cons.mp h with rfl | h
      · exact Or.inl rfl
      · rcases mem_joinSpace (w' :: ws') c h with h | ⟨u, hu, hc⟩
        · exact Or.inl h
        · exact Or.inr ⟨u, List.mem_cons_of_mem w hu, hc⟩

theorem joinSpace_chars {ws : List (List Char)} (hws : ∀ w ∈ ws, goodWord w) :
    ∀ c ∈ joinSpace ws, pyWs c = false ∨ c = ' ' := by
  intro c hc
  rcases mem_joinSpace ws c hc with rfl | ⟨w, hw, hcw⟩
  · exact Or.inr rfl
  · exact Or.inl ((hws w hw).2 c hcw)

theorem joinSpace_ne_nil : ∀ ws : List (List Char), ws ≠ [] → (∀ w ∈ ws, goodWord w) →
    joinSpace ws ≠ []
  | [], h, _ => absurd rfl h
  | [w], _, hg => by
    simpa [joinSpace] using (hg w (List.mem_singleton.mpr rfl)).1
  | w :: w' :: ws', _, hg => by
    show w ++ ' ' :: joinSpace (w' :: ws') ≠ []
    simp

theorem headNonWs_append {a b : List Char} (ha : a ≠ []) :
    headNonWs (a ++ b) = headNonWs a := by
  rcases a with _ | ⟨c, a'⟩
  · exact absurd rfl ha
  · rfl

theorem headNonWs_of_good {w : List Char} (hg : goodWord w) : headNonWs w = true := by
  rcases w with _ | ⟨c, w'⟩
  · exact absurd rfl hg.1
  · show (!pyWs c) = true
    simp [hg.2 c (List.mem_cons_self c w')]

theorem headNonWs_reverse_of_good {w : List Char} (hg : goodWord w) :
    headNonWs w.reverse = true := by
  rcases hr : w.reverse with _ | ⟨c, r'⟩
  · exact absurd (by simpa using congrArg List.reverse hr) hg.1
  · show (!pyWs c) = true
    have : c ∈ w := List.mem_reverse.mp (hr ▸ List.mem_cons_self c r')
    simp [hg.2 c this]

theorem joinSpace_headNonWs : ∀ ws : List (List Char), ws ≠ [] → (∀ w ∈ ws, goodWord w) →
    headNonWs (joinSpace ws) = true
  | [], h, _ => absurd rfl h
  | [w], _, hg => headNonWs_of_good (hg w (List.mem_singleton.mpr rfl))
  | w :: w' :: ws', _, hg => by
    show headNonWs (w ++ ' ' :: joinSpace (w' :: ws')) = true
    rw [headNonWs_append (hg w (List.mem_cons_self w _)).1]
    exact headNonWs_of_good (hg w (List.mem_cons_self w _))

theorem joinSpace_rev_headNonWs : ∀ ws : List (List Char), ws ≠ [] →
    (∀ w ∈ ws, goodWord w) → headNonWs (joinSpace ws).reverse = true
  | [], h, _ => absurd rfl h
  | [w], _, hg => headNonWs_reverse_of_good (hg w (List.mem_singleton.mpr rfl))
  | w :: w' :: ws', _, hg => by
    show headNonWs (w ++ ' ' :: joinSpace (w' :: ws')).reverse = true
    rw [List.reverse_append, List.reverse_cons]
    have hj : joinSpace (w' :: ws') ≠ [] :=
      joinSpace_ne_nil _ (by simp) (fun u hu => hg u (List.mem_cons_of_mem w hu))
    rw [headNonWs_append (show (joinSpace (w' :: ws')).reverse ++ [' '] ≠ [] by simp),
      headNonWs_append (show (joinSpace (w' :: ws')).reverse ≠ [] by simpa using hj)]
    exact joinSpace_rev_headNonWs (w' :: ws') (by simp)
      (fun u hu => hg u (List.mem_cons_of_mem w hu))

theorem joinSpace_no_nl {ws : List (List Char)} (hws : ∀ w ∈ ws, goodWord w) :
    '\n' ∉ joinSpace ws := by
  intro h
  rcases joinSpace_chars hws '\n' h with h | h
  · exact absurd h (by decide)
  · exact absurd h (by decide)

/-- Scanning a whitespace-free word accumulates it. -/
theorem wordsAux_word : ∀ (w acc l : List Char), (∀ c ∈ w, pyWs c = false) →
    wordsAux acc (w ++ l) = wordsAux (w.reverse ++ acc) l
  | [], acc, l, _ => by simp
  | c :: w', acc, l, hw => by
    rw [List.cons_append, wordsAux, if_neg (by simp [hw c (List.mem_cons_self c w')]),
      wordsAux_word w' (c :: acc) l (fun x hx => hw x (List.mem_cons_of_mem c hx))]
    simp

/-- `str.split` is a left inverse of `' '.join` on good words. -/
theorem pyWords_joinSpace : ∀ ws : List (List Char), (∀ w ∈ ws, goodWord w) →
    pyWords (joinSpace ws) = ws
  | [], _ => rfl
  | [w], hg => by
    show wordsAux [] (joinSpace [w]) = [w]
    have : joinSpace [w] = w ++ [] := by simp [joinSpace]
    rw [this, wordsAux_word w [] [] (hg w (List.mem_singleton.mpr rfl)).2]
    rw [wordsAux, if_neg (by simpa [List.isEmpty_iff] using (hg w (List.mem_singleton.mpr rfl)).1)]
    simp
  | w :: w' :: ws', hg => by
    show wordsAux [] (w ++ ' ' :: joinSpace (w' :: ws')) = w :: w' :: ws'
    rw [wordsAux_word w [] _ (hg w (List.mem_cons_self w _)).2]
    rw [wordsAux, if_pos (by decide),
      if_neg (by simpa [List.isEmpty_iff] using (hg w (List.mem_cons_self w _)).1)]
    simp only [List.append_nil, List.reverse_reverse]
    rw [show wordsAux [] (joinSpace (w' :: ws')) = pyWords (joinSpace (w' :: ws')) from rfl,
      pyWords_joinSpace (w' :: ws') (fun u hu => hg u (List.mem_cons_of_mem w hu))]

/-- Collapsing is idempotent on collapsed text. -/
theorem collapseWs_joinSpace {ws : List (List Char)} (hg : ∀ w ∈ ws, goodWord w) :
    collapseWs (joinSpace ws) = joinSpace ws := by
  rw [collapseWs, pyWords_joinSpace ws hg]

/-! ## Helper lemmas: `reflow_paragraphs` — `textwrap.fill` as identity -/

theorem expandTabsAux_id : ∀ (l : List Char) (col : Nat), '\t' ∉ l →
    expandTabsAux col l = l
  | [], _, _ => rfl
  | c :: rest, col, h => by
    have hct : c ≠ '\t' := fun he => h (he ▸ List.mem_cons_self c rest)
    have hr : '\t' ∉ rest := fun hm => h (List.mem_cons_of_mem c hm)
    rw [expandTabsAux, if_neg hct]
    split
    · rw [expandTabsAux_id rest 0 hr]
    · rw [expandTabsAux_id rest (col + 1) hr]

theorem munge_id {s : List Char} (h : ∀ c ∈ s, pyWs c = false ∨ c = ' ') :
    munge s = s := by
  have ht : '\t' ∉ s := by
    intro hm
    rcases h '\t' hm with h1 | h1
    · exact absurd h1 (by decide)
    · exact absurd h1 (by decide)
  rw [munge, expandTabsAux_id s 0 ht]
  have hmap : ∀ c ∈ s, (if twWs c then ' ' else c) = id c := by
    intro c hc
    rcases h c hc with h1 | h1
    · rw [if_neg (fun htw => by simp [twWs_imp_pyWs htw] at h1)]
      rfl
    · rw [h1, if_pos (by decide)]
      rfl
  rw [List.map_congr_left hmap, List.map_id]

theorem wordScan_tile : ∀ (rest revAcc : List Char),
    (wordScan revAcc rest).1 = revAcc.reverse ∧ (wordScan revAcc rest).2 = rest ∨
      (wordScan revAcc rest).1 ++ (wordScan revAcc rest).2 = revAcc.reverse ++ rest
  | [], revAcc => Or.inl ⟨rfl, rfl⟩
  | r :: rs, revAcc => by
    simp only [wordScan]
    split
    · next h =>
      refine Or.inr ?_
      have hr : r = '-' := eq_of_beq (by
        rcases Bool.and_eq_true_iff.mp h with ⟨h1, _⟩
        exact (Bool.and_eq_true_iff.mp h1).1)
      simp [hr]
    · split
      · exact Or.inl ⟨rfl, rfl⟩
      · split
        · exact Or.inl ⟨rfl, rfl⟩
        · rcases wordScan_tile rs (r :: revAcc) with ⟨h1, h2⟩ | h
          · refine Or.inr ?_
            rw [h1, h2]
            simp
          · refine Or.inr ?_
            rw [h]
            simp

theorem wordScan_flat (rest revAcc : List Char) :
    (wordScan revAcc rest).1 ++ (wordScan revAcc rest).2 = revAcc.reverse ++ rest := by
  rcases wordScan_tile rest revAcc with ⟨h1, h2⟩ | h
  · rw [h1, h2]
  · exact h

theorem wordScan_ne_nil : ∀ (rest revAcc : List Char), revAcc ≠ [] →
    (wordScan revAcc rest).1 ≠ []
  | [], revAcc, h => by
    show revAcc.reverse ≠ []
    simpa using h
  | r :: rs, revAcc, h => by
    simp only [wordScan]
    split
    · simp
    · split
      · show revAcc.reverse ≠ []
        simpa using h
      · split
        · show revAcc.reverse ≠ []
          simpa using h
        · exact wordScan_ne_nil rs (r :: revAcc) (by simp)

theorem takeChunk_flat (prev : Option Char) (cs : List Char) :
    (takeChunk prev cs).1 ++ (takeChunk prev cs).2 = cs := by
  rcases cs with _ | ⟨c, rest⟩
  · rfl
  · simp only [takeChunk]
    split
    · exact List.takeWhile_append_dropWhile twWs (c :: rest)
    · split
      · exact List.takeWhile_append_dropWhile (· == '-') (c :: rest)
      · exact wordScan_flat rest [c]

theorem takeChunk_ne_nil (prev : Option Char) (cs : List Char) (h : cs ≠ []) :
    (takeChunk prev cs).1 ≠ [] := by
  rcases cs with _ | ⟨c, rest⟩
  · exact absurd rfl h
  · simp only [takeChunk]
    split
    · next hws =>
      rw [List.takeWhile_cons, if_pos hws]
      simp
    · next hws =>
      split
      · next hem =>
        rcases Bool.and_eq_true_iff.mp hem with ⟨_, hrun⟩
        intro hnil
        rw [emDashAhead] at hrun
        rcases Bool.and_eq_true_iff.mp hrun with ⟨hlen, _⟩
        have hnil' : (c :: rest).takeWhile (· == '-') = [] := hnil
        rw [hnil'] at hlen
        exact absurd (of_decide_eq_true hlen) (by simp)
      · exact wordScan_ne_nil rest [c] (by simp)

theorem chunksAux_flat : ∀ (fuel : Nat) (prev : Option Char) (cs : List Char),
    cs.length ≤ fuel → (chunksAux fuel prev cs).flatten = cs ∧
      ∀ ch ∈ chunksAux fuel prev cs, ch ≠ []
  | fuel, prev, [], _ => by
    rcases fuel with _ | f <;> simp [chunksAux]
  | 0, prev, c :: rest, h => by
    simp at h
  | fuel + 1, prev, c :: rest, h => by
    rw [chunksAux]
    have hflat := takeChunk_flat prev (c :: rest)
    have hne := takeChunk_ne_nil prev (c :: rest) (List.cons_ne_nil c rest)
    have hlen : (takeChunk prev (c :: rest)).2.length ≤ fuel := by
      have := congrArg List.length hflat
      simp only [List.length_append, List.length_cons] at this h
      rcases hp : (takeChunk prev (c :: rest)).1 with _ | ⟨a, as⟩
      · exact absurd hp hne
      · rw [hp] at this
        simp only [List.length_cons] at this
        omega
    obtain ⟨ih1, ih2⟩ := chunksAux_flat fuel (takeChunk prev (c :: rest)).1.getLast?
      (takeChunk prev (c :: rest)).2 hlen
    constructor
    · simp only [List.flatten_cons, ih1, hflat]
    · intro ch hch
      rcases List.mem_cons.mp hch with rfl | hch
      · exact hne
      · exact ih2 ch hch

theorem splitChunks_flat (s : List Char) (h : ∀ c ∈ s, pyWs c = false ∨ c = ' ') :
    (splitChunks s).flatten = s ∧ ∀ ch ∈ splitChunks s, ch ≠ [] := by
  rw [splitChunks]
  have hm : munge s = s := munge_id h
  rw [hm]
  exact chunksAux_flat s.length none s (Nat.le_refl _)

/-- Total length of a chunk list. -/
def totalLen (chunks : List (List Char)) : Nat :=
  (chunks.map List.length).sum

theorem fillGreedy_all (w : Nat) : ∀ (chunks : List (List Char)) (curLen : Nat)
    (curLine : List (List Char)), curLen + totalLen chunks ≤ w →
    fillGreedy w curLen curLine chunks = (curLine ++ chunks, curLen + totalLen chunks, [])
  | [], curLen, curLine, _ => by simp [fillGreedy, totalLen]
  | ch :: rest, curLen, curLine, h => by
    have htl : totalLen (ch :: rest) = ch.length + totalLen rest := by
      simp [totalLen]
    rw [fillGreedy, if_pos (by omega),
      fillGreedy_all w rest (curLen + ch.length) (curLine ++ [ch]) (by omega)]
    rw [htl]
    simp [List.append_assoc, Nat.add_assoc]

theorem wrapFuel_pos : ∀ chunks : List (List Char), 1 ≤ wrapFuel chunks
  | [] => Nat.le_refl 1
  | c :: cs => by
    have := wrapFuel_pos cs
    show 1 ≤ c.length + 1 + wrapFuel cs
    omega

theorem wrapAux_nil (w : Nat) : ∀ (f : Nat) (lines : List (List Char)),
    wrapAux w f lines [] = lines := by
  intro f lines
  cases f <;> rfl

theorem flatten_concat_not_ws (init : List (List Char)) (b : List Char) (s : List Char)
    (hflat : (init ++ [b]).flatten = s) (hbne : b ≠ [])
    (hrev : headNonWs s.reverse = true) : b.all pyWs = false := by
  rw [List.flatten_append] at hflat
  have hsrev : s.reverse = b.reverse ++ (init.flatten).reverse := by
    rw [← hflat]
    simp [List.reverse_append]
  rw [hsrev, headNonWs_append (by simpa using hbne)] at hrev
  rcases hr : b.reverse with _ | ⟨c, r'⟩
  · exact absurd (by simpa using congrArg List.reverse hr) hbne
  · rw [hr] at hrev
    have hcw : pyWs c = false := by
      have : (!pyWs c) = true := hrev
      simpa using this
    have hcmem : c ∈ b := List.mem_reverse.mp (hr ▸ List.mem_cons_self c r')
    rcases hall : b.all pyWs with _ | _
    · rfl
    · exact absurd (List.all_eq_true.mp hall c hcmem) (by simp [hcw])

theorem wrapStep_id (w : Nat) (init : List (List Char)) (b : List Char) (s : List Char)
    (hne : ∀ ch ∈ init ++ [b], ch ≠ []) (hflat : (init ++ [b]).flatten = s)
    (hlen : s.length ≤ w) (hrev : headNonWs s.reverse = true) :
    wrapStep w false (init ++ [b]) = (some s, []) := by
  have htot : totalLen (init ++ [b]) ≤ w := by
    have h2 := List.length_flatten (init ++ [b])
    rw [hflat] at h2
    rw [totalLen, ← h2]
    exact hlen
  rcases hc : init ++ [b] with _ | ⟨c0, crest⟩
  · exact absurd hc (by simp)
  · rw [wrapStep]
    simp only [Bool.false_and, Bool.false_eq_true, if_false]
    rw [← hc, fillGreedy_all w (init ++ [b]) 0 [] (by omega)]
    dsimp only
    rw [List.nil_append, List.getLast?_concat]
    dsimp only
    rw [flatten_concat_not_ws init b s hflat (hne b (by simp)) hrev]
    simp only [Bool.false_eq_true, if_false]
    rw [if_neg (by simp), hflat]

theorem fillTW_id (w : Nat) (s : List Char)
    (hchars : ∀ c ∈ s, pyWs c = false ∨ c = ' ') (hlen : s.length ≤ w)
    (hrev : headNonWs s.reverse = true) (hne : s ≠ []) :
    fillTW w s = s := by
  obtain ⟨hflat, hcne⟩ := splitChunks_flat s hchars
  rcases List.eq_nil_or_concat (splitChunks s) with hnil | ⟨init, b, hcb⟩
  · rw [hnil] at hflat
    exact absurd hflat.symm hne
  · rw [List.concat_eq_append] at hcb
    obtain ⟨f, hf⟩ : ∃ f, wrapFuel (splitChunks s) = f + 1 := by
      have := wrapFuel_pos (splitChunks s)
      exact ⟨wrapFuel (splitChunks s) - 1, by omega⟩
    rw [fillTW, hf, hcb]
    rw [hcb] at hflat hcne
    rcases hc : init ++ [b] with _ | ⟨c0, crest⟩
    · exact absurd hc (by simp)
    · rw [wrapAux]
      rw [← hc]
      have hstep := wrapStep_id w init b s hcne hflat hlen hrev
      rw [show (! List.isEmpty ([] : List (List Char))) = false from rfl, hstep]
      dsimp only
      rw [List.nil_append, wrapAux_nil]
      rfl

/-! ## Helper lemmas: `reflow_paragraphs` — the paragraph split -/

theorem paraSep_length {rest rem : List Char} (h : paraSep rest = some rem) :
    rem.length ≤ rest.length := by
  rw [paraSep] at h
  split at h
  · have hrem := Option.some.inj h
    have h1 : ((rest.takeWhile pyWs).reverse.takeWhile (· != '\n')).length ≤
        (rest.takeWhile pyWs).length := by
      calc ((rest.takeWhile pyWs).reverse.takeWhile (· != '\n')).length
          ≤ (rest.takeWhile pyWs).reverse.length :=
            (List.takeWhile_prefix _).length_le
        _ = (rest.takeWhile pyWs).length := List.length_reverse _
    have h2 : (rest.takeWhile pyWs).length ≤ rest.length :=
      (List.takeWhile_prefix _).length_le
    rw [← hrem]
    simp only [List.length_append, List.length_reverse, List.length_drop]
    omega
  · exact absurd h (by simp)

theorem paraAux_congr : ∀ (n f g : Nat) (acc cs : List Char), cs.length ≤ n →
    cs.length ≤ f → cs.length ≤ g → paraAux f acc cs = paraAux g acc cs := by
  intro n
  induction n with
  | zero =>
    intro f g acc cs h _ _
    have : cs = [] := List.length_eq_zero.mp (Nat.le_antisymm h (Nat.zero_le _))
    subst this
    cases f <;> cases g <;> rfl
  | succ n ih =>
    intro f g acc cs h hf hg
    rcases cs with _ | ⟨c, rest⟩
    · cases f <;> cases g <;> rfl
    · simp only [List.length_cons] at h hf hg
      rcases f with _ | f'
      · omega
      rcases g with _ | g'
      · omega
      rw [paraAux, paraAux]
      split
      · rcases hsep : paraSep rest with _ | rem
        · dsimp only
          exact ih f' g' ('\n' :: acc) rest (by omega) (by omega) (by omega)
        · dsimp only
          have := paraSep_length hsep
          exact congrArg (acc.reverse :: ·) (ih f' g' [] rem (by omega) (by omega) (by omega))
      · exact ih f' g' (c :: acc) rest (by omega) (by omega) (by omega)

/-- Scanning a newline-free block accumulates it unchanged. -/
theorem paraAux_skip : ∀ (s : List Char), '\n' ∉ s → ∀ (acc cs : List Char),
    paraAux (s ++ cs).length acc (s ++ cs) = paraAux cs.length (s.reverse ++ acc) cs
  | [], _, acc, cs => by simp
  | c :: s', h, acc, cs => by
    have hc : c ≠ '\n' := fun he => h (he ▸ List.mem_cons_self c s')
    have hs' : '\n' ∉ s' := fun hm => h (List.mem_cons_of_mem c hm)
    rw [List.cons_append]
    simp only [List.length_cons]
    rw [paraAux, if_neg hc, paraAux_skip s' hs' (c :: acc) cs]
    simp

theorem paraSep_nl (z : List Char) (hz : z.takeWhile pyWs = []) :
    paraSep ('\n' :: z) = some z := by
  rw [paraSep]
  have hrun : ('\n' :: z).takeWhile pyWs = ['\n'] := by
    rw [List.takeWhile_cons, if_pos (by decide), hz]
  rw [hrun]
  simp

/-- The paragraph splitter is a left inverse of the `"\n\n"` join, for
paragraphs that are newline-free and begin with a non-whitespace character. -/
theorem splitParas_joinPara : ∀ ss : List (List Char), ss ≠ [] →
    (∀ s ∈ ss, '\n' ∉ s) → (∀ s ∈ ss, headNonWs s = true) →
    splitParas (joinPara ss) = ss
  | [], h, _, _ => absurd rfl h
  | [s], _, hnl, _ => by
    show paraAux (joinPara [s]).length [] (joinPara [s]) = [s]
    have hj : joinPara [s] = s ++ [] := by simp [joinPara]
    rw [hj, paraAux_skip s (hnl s (List.mem_singleton.mpr rfl)) [] []]
    simp [paraAux]
  | s :: s' :: ss', _, hnl, hh => by
    show paraAux (joinPara (s :: s' :: ss')).length [] (joinPara (s :: s' :: ss')) =
      s :: s' :: ss'
    have hj : joinPara (s :: s' :: ss') = s ++ '\n' :: '\n' :: joinPara (s' :: ss') := rfl
    rw [hj, paraAux_skip s (hnl s (List.mem_cons_self s _)) []]
    have hlen : ('\n' :: '\n' :: joinPara (s' :: ss')).length =
        (joinPara (s' :: ss')).length + 1 + 1 := by simp
    rw [hlen, paraAux, if_pos rfl]
    have hznn : (joinPara (s' :: ss')).takeWhile pyWs = [] := by
      have hs' : headNonWs s' = true := hh s' (List.mem_cons_of_mem s (List.mem_cons_self s' _))
      rcases hs'' : s' with _ | ⟨c, cs⟩
      · rw [hs''] at hs'
        exact absurd hs' (by simp [headNonWs])
      · rw [hs''] at hs'
        have hcws : pyWs c = false := by simpa [headNonWs] using hs'
        have hstart : ∃ X, joinPara ((c :: cs) :: ss') = c :: X := by
          rcases ss' with _ | ⟨a, as⟩
          · exact ⟨cs, rfl⟩
          · exact ⟨cs ++ '\n' :: '\n' :: joinPara (a :: as), rfl⟩
        obtain ⟨X, hX⟩ := hstart
        rw [hX, List.takeWhile_cons]
        simp [hcws]
    rw [paraSep_nl _ hznn]
    simp only [List.append_nil, List.reverse_reverse]
    have hcongr := paraAux_congr ((joinPara (s' :: ss')).length + 1)
      ((joinPara (s' :: ss')).length + 1) (joinPara (s' :: ss')).length []
      (joinPara (s' :: ss')) (by omega) (by omega) (by omega)
    rw [hcongr]
    rw [show paraAux (joinPara (s' :: ss')).length [] (joinPara (s' :: ss')) =
      splitParas (joinPara (s' :: ss')) from rfl]
    rw [splitParas_joinPara (s' :: ss') (by simp)
      (fun u hu => hnl u (List.mem_cons_of_mem s hu))
      (fun u hu => hh u (List.mem_cons_of_mem s hu))]

/-! ## Helper lemmas: paragraphs of stripped text contain a printable character -/

theorem dropWhile_headNonWs : ∀ l : List Char,
    l.dropWhile pyWs = [] ∨ headNonWs (l.dropWhile pyWs) = true
  | [] => Or.inl rfl
  | c :: rest => by
    rw [List.dropWhile_cons]
    split
    · exact dropWhile_headNonWs rest
    · next h =>
      refine Or.inr ?_
      show (!pyWs c) = true
      simp [Bool.eq_false_iff.mpr h]

theorem takeWhile_nil_of_headNonWs {l : List Char} (h : headNonWs l = true) :
    l.takeWhile pyWs = [] := by
  rcases l with _ | ⟨c, rest⟩
  · rfl
  · have hc : pyWs c = false := by simpa [headNonWs] using h
    rw [List.takeWhile_cons, if_neg (by simp [hc])]

theorem headNonWs_reverse_false_of_all_ws {l : List Char} (hall : ∀ c ∈ l, pyWs c = true)
    (hne : l ≠ []) : headNonWs l.reverse = false := by
  rcases hr : l.reverse with _ | ⟨c, r'⟩
  · exact absurd (by simpa using congrArg List.reverse hr) hne
  · have hc : c ∈ l := List.mem_reverse.mp (hr ▸ List.mem_cons_self c r')
    show (!pyWs c) = false
    simp [hall c hc]

theorem drop_length_takeWhile (p : Char → Bool) (l : List Char) :
    l.drop (l.takeWhile p).length = l.dropWhile p := by
  have h := List.drop_left (l.takeWhile p) (l.dropWhile p)
  rw [List.takeWhile_append_dropWhile] at h
  exact h

theorem paraAux_nil (f : Nat) (acc : List Char) : paraAux f acc [] = [acc.reverse] := by
  cases f <;> rfl

theorem paraAux_nonws : ∀ (n f : Nat) (acc cs : List Char), cs.length ≤ n → cs.length ≤ f →
    (cs ≠ [] → headNonWs cs.reverse = true) →
    ((∃ c ∈ acc, pyWs c = false) ∨ (cs ≠ [] ∧ '\n' ∉ cs.takeWhile pyWs)) →
    ∀ p ∈ paraAux f acc cs, ∃ c ∈ p, pyWs c = false := by
  intro n
  induction n with
  | zero =>
    intro f acc cs h hf _ hinv2 p hp
    have : cs = [] := List.length_eq_zero.mp (Nat.le_antisymm h (Nat.zero_le _))
    subst this
    rw [paraAux_nil] at hp
    have hp' : p = acc.reverse := List.mem_singleton.mp hp
    rcases hinv2 with ⟨c, hc, hw⟩ | ⟨hne, _⟩
    · exact ⟨c, hp' ▸ List.mem_reverse.mpr hc, hw⟩
    · exact absurd rfl hne
  | succ n ih =>
    intro f acc cs h hf hinv1 hinv2 p hp
    rcases cs with _ | ⟨c, rest⟩
    · rw [paraAux_nil] at hp
      have hp' : p = acc.reverse := List.mem_singleton.mp hp
      rcases hinv2 with ⟨c, hc, hw⟩ | ⟨hne, _⟩
      · exact ⟨c, hp' ▸ List.mem_reverse.mpr hc, hw⟩
      · exact absurd rfl hne
    · simp only [List.length_cons] at h hf
      rcases f with _ | f'
      · omega
      rw [paraAux] at hp
      have hrest_rev : rest ≠ [] → headNonWs rest.reverse = true := by
        intro hrne
        have := hinv1 (List.cons_ne_nil c rest)
        rw [show (c :: rest).reverse = rest.reverse ++ [c] by simp,
          headNonWs_append (by simpa using hrne)] at this
        exact this
      split at hp
      · next hceq =>
        subst hceq
        have hleft : ∃ x ∈ acc, pyWs x = false := by
          rcases hinv2 with hl | ⟨_, hnin⟩
          · exact hl
          · exact absurd (by
              rw [List.takeWhile_cons, if_pos (by decide)]
              exact List.mem_cons_self '\n' _) hnin
        rcases hsep : paraSep rest with _ | rem
        · rw [hsep] at hp
          dsimp only at hp
          refine ih f' ('\n' :: acc) rest (by omega) (by omega) hrest_rev ?_ p hp
          obtain ⟨x, hx, hw⟩ := hleft
          exact Or.inl ⟨x, List.mem_cons_of_mem _ hx, hw⟩
        · rw [hsep] at hp
          dsimp only at hp
          rcases List.mem_cons.mp hp with rfl | hp
          · obtain ⟨x, hx, hw⟩ := hleft
            exact ⟨x, List.mem_reverse.mpr hx, hw⟩
          · -- facts about the separator match
            have hrem : rem = ((rest.takeWhile pyWs).reverse.takeWhile (· != '\n')).reverse ++
                rest.drop (rest.takeWhile pyWs).length := by
              rw [paraSep] at hsep
              split at hsep
              · exact (Option.some.inj hsep).symm
              · exact absurd hsep (by simp)
            have hZ : rest.drop (rest.takeWhile pyWs).length = rest.dropWhile pyWs :=
              drop_length_takeWhile pyWs rest
            have hZne : rest.dropWhile pyWs ≠ [] := by
              intro hz
              have hall : ∀ x ∈ rest, pyWs x = true := List.dropWhile_eq_nil_iff.mp hz
              have hallcs : ∀ x ∈ '\n' :: rest, pyWs x = true := by
                intro x hx
                rcases List.mem_cons.mp hx with rfl | hx
                · decide
                · exact hall x hx
              have := headNonWs_reverse_false_of_all_ws hallcs (List.cons_ne_nil _ _)
              rw [hinv1 (List.cons_ne_nil _ _)] at this
              exact absurd this (by simp)
            have htail_ws : ∀ x ∈ ((rest.takeWhile pyWs).reverse.takeWhile (· != '\n')).reverse,
                pyWs x = true := by
              intro x hx
              have h1 : x ∈ (rest.takeWhile pyWs).reverse.takeWhile (· != '\n') :=
                List.mem_reverse.mp hx
              have h2 : x ∈ (rest.takeWhile pyWs).reverse :=
                (List.takeWhile_prefix _).subset h1
              exact List.mem_takeWhile_imp (List.mem_reverse.mp h2)
            have htail_nonl : ∀ x ∈ ((rest.takeWhile pyWs).reverse.takeWhile (· != '\n')).reverse,
                x ≠ '\n' := by
              intro x hx
              have h1 : x ∈ (rest.takeWhile pyWs).reverse.takeWhile (· != '\n') :=
                List.mem_reverse.mp hx
              have := List.mem_takeWhile_imp h1
              simpa using this
            refine ih f' [] rem (by
                have := paraSep_length hsep
                omega)
              (by
                have := paraSep_length hsep
                omega)
              ?_ ?_ p hp
            · -- Inv1 for rem
              intro _
              rw [hrem, hZ]
              rw [List.reverse_append]
              rw [headNonWs_append (by simpa using hZne)]
              have hrevrest : headNonWs rest.reverse = true := by
                apply hrest_rev
                intro hrn
                rw [hrn] at hZne
                exact hZne rfl
              have hdecomp : rest.reverse = (rest.dropWhile pyWs).reverse ++
                  (rest.takeWhile pyWs).reverse := by
                rw [← List.reverse_append, List.takeWhile_append_dropWhile]
              rw [hdecomp, headNonWs_append (by simpa using hZne)] at hrevrest
              exact hrevrest
            · -- Inv2 for rem
              refine Or.inr ⟨?_, ?_⟩
              · rw [hrem, hZ]
                intro habs
                rcases List.append_eq_nil.mp habs with ⟨_, h2⟩
                exact hZne h2
              · rw [hrem, hZ]
                rcases hz : rest.dropWhile pyWs with _ | ⟨z0, Z'⟩
                · exact absurd hz hZne
                · have hz0 : pyWs z0 = false := by
                    rcases dropWhile_headNonWs rest with hn | hh
                    · exact absurd hn hZne
                    · rw [hz] at hh
                      simpa [headNonWs] using hh
                  rw [takeWhile_app pyWs _ z0 Z' htail_ws hz0]
                  intro hmem
                  exact htail_nonl '\n' hmem rfl
      · next hcne =>
        have hrne : rest ≠ [] ∨ pyWs c = false := by
          by_cases hcw : pyWs c = false
          · exact Or.inr hcw
          · left
            intro hrn
            have h1 := hinv1 (List.cons_ne_nil c rest)
            rw [hrn] at h1
            have hcw' : pyWs c = true := by
              rcases hb : pyWs c with _ | _
              · exact absurd hb hcw
              · rfl
            have h2 : headNonWs [c].reverse = false := by
              show (!pyWs c) = false
              simp [hcw']
            rw [h1] at h2
            exact absurd h2 (by simp)
        refine ih f' (c :: acc) rest (by omega) (by omega) hrest_rev ?_ p hp
        by_cases hcw : pyWs c = false
        · exact Or.inl ⟨c, List.mem_cons_self c acc, hcw⟩
        · have hcw' : pyWs c = true := by
            rcases hcb : pyWs c with _ | _
            · exact absurd hcb hcw
            · rfl
          rcases hinv2 with ⟨x, hx, hw⟩ | ⟨_, hnin⟩
          · exact Or.inl ⟨x, List.mem_cons_of_mem c hx, hw⟩
          · refine Or.inr ⟨?_, ?_⟩
            · rcases hrne with hr | hr
              · exact hr
              · exact absurd hr hcw
            · rw [List.takeWhile_cons, if_pos hcw'] at hnin
              intro hmem
              exact hnin (List.mem_cons_of_mem c hmem)

/-! ## Helper lemmas: `pyStrip` and final assembly for reflow idempotence -/

theorem headNonWs_ne_nil {s : List Char} (h : headNonWs s = true) : s ≠ [] := by
  rcases s with _ | ⟨c, rest⟩
  · exact absurd h (by simp [headNonWs])
  · simp

theorem dropWhile_eq_self_of_headNonWs {s : List Char} (h : headNonWs s = true) :
    s.dropWhile pyWs = s := by
  rcases s with _ | ⟨c, rest⟩
  · rfl
  · have hc : pyWs c = false := by simpa [headNonWs] using h
    rw [List.dropWhile_cons, if_neg (by simp [hc])]

theorem pyStrip_eq_self {s : List Char} (h1 : headNonWs s = true)
    (h2 : headNonWs s.reverse = true) : pyStrip s = s := by
  rw [pyStrip, dropWhile_eq_self_of_headNonWs h1, dropWhile_eq_self_of_headNonWs h2,
    List.reverse_reverse]

theorem pyStrip_props (x : List Char) (h : pyStrip x ≠ []) :
    headNonWs (pyStrip x) = true ∧ headNonWs (pyStrip x).reverse = true := by
  have hB : pyStrip x = ((x.dropWhile pyWs).reverse.dropWhile pyWs).reverse := rfl
  have hBne : (x.dropWhile pyWs).reverse.dropWhile pyWs ≠ [] := by
    intro hb
    rw [hB, hb] at h
    exact h rfl
  have hBhead : headNonWs ((x.dropWhile pyWs).reverse.dropWhile pyWs) = true := by
    rcases dropWhile_headNonWs (x.dropWhile pyWs).reverse with hn | hh
    · exact absurd hn hBne
    · exact hh
  constructor
  · -- the first character of the strip is the first character of `dropWhile pyWs x`
    obtain ⟨pre, hpre⟩ : (x.dropWhile pyWs).reverse.dropWhile pyWs <:+ (x.dropWhile pyWs).reverse :=
      List.dropWhile_suffix pyWs
    have hA : x.dropWhile pyWs =
        ((x.dropWhile pyWs).reverse.dropWhile pyWs).reverse ++ pre.reverse := by
      have := congrArg List.reverse hpre
      rw [List.reverse_append, List.reverse_reverse] at this
      exact this.symm
    have hAne : x.dropWhile pyWs ≠ [] := by
      rw [hA]
      intro habs
      rcases List.append_eq_nil.mp habs with ⟨hh1, _⟩
      exact hBne (by simpa using congrArg List.reverse hh1)
    have hAhead : headNonWs (x.dropWhile pyWs) = true := by
      rcases dropWhile_headNonWs x with hn | hh
      · exact absurd hn hAne
      · exact hh
    rw [hA, headNonWs_append (by simpa using hBne)] at hAhead
    rw [hB]
    exact hAhead
  · rw [hB, List.reverse_reverse]
    exact hBhead

theorem splitParas_nonws (x : List Char) (h : pyStrip x ≠ []) :
    ∀ p ∈ splitParas (pyStrip x), ∃ c ∈ p, pyWs c = false := by
  refine paraAux_nonws (pyStrip x).length (pyStrip x).length [] (pyStrip x)
    (Nat.le_refl _) (Nat.le_refl _) (fun _ => (pyStrip_props x h).2) (Or.inr ⟨h, ?_⟩)
  rw [takeWhile_nil_of_headNonWs (pyStrip_props x h).1]
  exact List.not_mem_nil '\n'

theorem paraAux_ne_nil : ∀ (f : Nat) (acc cs : List Char), paraAux f acc cs ≠ []
  | f, acc, [] => by rw [paraAux_nil]; simp
  | 0, acc, c :: rest => by simp [paraAux]
  | f + 1, acc, c :: rest => by
    rw [paraAux]
    split
    · rcases hsep : paraSep rest with _ | rem
      · dsimp only
        exact paraAux_ne_nil f ('\n' :: acc) rest
      · simp
    · exact paraAux_ne_nil f (c :: acc) rest

theorem splitParas_ne_nil (cs : List Char) : splitParas cs ≠ [] :=
  paraAux_ne_nil cs.length [] cs

theorem joinPara_headNonWs : ∀ ss : List (List Char), ss ≠ [] →
    (∀ s ∈ ss, headNonWs s = true) → headNonWs (joinPara ss) = true
  | [], h, _ => absurd rfl h
  | [s], _, hh => hh s (List.mem_singleton.mpr rfl)
  | s :: s' :: ss', _, hh => by
    show headNonWs (s ++ '\n' :: '\n' :: joinPara (s' :: ss')) = true
    rw [headNonWs_append (headNonWs_ne_nil (hh s (List.mem_cons_self s _)))]
    exact hh s (List.mem_cons_self s _)

theorem joinPara_rev_headNonWs : ∀ ss : List (List Char), ss ≠ [] →
    (∀ s ∈ ss, headNonWs s.reverse = true) → headNonWs (joinPara ss).reverse = true
  | [], h, _ => absurd rfl h
  | [s], _, hh => hh s (List.mem_singleton.mpr rfl)
  | s :: s' :: ss', _, hh => by
    show headNonWs (s ++ '\n' :: '\n' :: joinPara (s' :: ss')).reverse = true
    have hJ : joinPara (s' :: ss') ≠ [] := by
      have := hh s' (List.mem_cons_of_mem s (List.mem_cons_self s' _))
      have h2 := headNonWs_ne_nil this
      rcases ss' with _ | ⟨a, as⟩
      · simpa [joinPara] using h2
      · show s' ++ '\n' :: '\n' :: joinPara (a :: as) ≠ []
        simp
    rw [List.reverse_append, List.reverse_cons, List.reverse_cons,
      headNonWs_append (by simp [hJ]),
      List.append_assoc, headNonWs_append (by simpa using hJ)]
    exact joinPara_rev_headNonWs (s' :: ss') (by simp)
      (fun u hu => hh u (List.mem_cons_of_mem s hu))

theorem reflowCore_of_strip_nil (x : List Char) (W : Nat) (hse : pyStrip x = []) :
    reflowCore x W = [] := by
  rw [reflowCore, hse]
  rw [show splitParas ([] : List Char) = [[]] from rfl]
  rw [show ([[]] : List (List Char)).map (fun p => fillTW W (collapseWs p)) =
    [fillTW W (collapseWs [])] from rfl]
  rw [show collapseWs ([] : List Char) = [] from rfl]
  rw [show fillTW W ([] : List Char) = [] from rfl]
  rfl

theorem reflowCore_idem (x : List Char) (W : Nat)
    (hfit : ∀ p ∈ splitParas (pyStrip x), (collapseWs p).length ≤ W) :
    reflowCore (reflowCore x W) W = reflowCore x W := by
  by_cases hse : pyStrip x = []
  · rw [reflowCore_of_strip_nil x W hse, reflowCore_of_strip_nil [] W rfl]
  · have hnws := splitParas_nonws x hse
    -- each collapsed paragraph is a good single line
    have hgood : ∀ p ∈ splitParas (pyStrip x), ∀ w ∈ pyWords p, goodWord w :=
      fun p _ => pyWords_good p
    have hwne : ∀ p ∈ splitParas (pyStrip x), pyWords p ≠ [] :=
      fun p hp => pyWords_ne_nil p (hnws p hp)
    have hmap1 : (splitParas (pyStrip x)).map (fun p => fillTW W (collapseWs p)) =
        (splitParas (pyStrip x)).map collapseWs := by
      apply List.map_congr_left
      intro p hp
      show fillTW W (joinSpace (pyWords p)) = collapseWs p
      rw [show collapseWs p = joinSpace (pyWords p) from rfl]
      exact fillTW_id W (joinSpace (pyWords p))
        (joinSpace_chars (hgood p hp))
        (by
          have := hfit p hp
          rwa [show collapseWs p = joinSpace (pyWords p) from rfl] at this)
        (joinSpace_rev_headNonWs (pyWords p) (hwne p hp) (hgood p hp))
        (joinSpace_ne_nil (pyWords p) (hwne p hp) (hgood p hp))
    have hout : reflowCore x W = joinPara ((splitParas (pyStrip x)).map collapseWs) := by
      rw [reflowCore, hmap1]
    -- properties of the singles
    have hsingles : ∀ s ∈ (splitParas (pyStrip x)).map collapseWs,
        headNonWs s = true ∧ headNonWs s.reverse = true ∧ '\n' ∉ s := by
      intro s hs
      obtain ⟨p, hp, rfl⟩ := List.mem_map.mp hs
      refine ⟨joinSpace_headNonWs (pyWords p) (hwne p hp) (hgood p hp),
        joinSpace_rev_headNonWs (pyWords p) (hwne p hp) (hgood p hp),
        joinSpace_no_nl (hgood p hp)⟩
    have hsne : (splitParas (pyStrip x)).map collapseWs ≠ [] := by
      intro habs
      exact splitParas_ne_nil (pyStrip x) (List.map_eq_nil_iff.mp habs)
    -- the output is already stripped
    have hstrip : pyStrip (joinPara ((splitParas (pyStrip x)).map collapseWs)) =
        joinPara ((splitParas (pyStrip x)).map collapseWs) := by
      apply pyStrip_eq_self
      · exact joinPara_headNonWs _ hsne (fun s hs => (hsingles s hs).1)
      · exact joinPara_rev_headNonWs _ hsne (fun s hs => (hsingles s hs).2.1)
    -- re-splitting recovers the singles
    have hsplit : splitParas (joinPara ((splitParas (pyStrip x)).map collapseWs)) =
        (splitParas (pyStrip x)).map collapseWs :=
      splitParas_joinPara _ hsne (fun s hs => (hsingles s hs).2.2)
        (fun s hs => (hsingles s hs).1)
    rw [hout, reflowCore, hstrip, hsplit]
    have hmap2 : ((splitParas (pyStrip x)).map collapseWs).map
        (fun p => fillTW W (collapseWs p)) = (splitParas (pyStrip x)).map collapseWs := by
      rw [List.map_map]
      apply List.map_congr_left
      intro p hp
      show fillTW W (collapseWs (collapseWs p)) = collapseWs p
      rw [show collapseWs p = joinSpace (pyWords p) from rfl,
        collapseWs_joinSpace (hgood p hp)]
      exact fillTW_id W (joinSpace (pyWords p))
        (joinSpace_chars (hgood p hp))
        (by
          have := hfit p hp
          rwa [show collapseWs p = joinSpace (pyWords p) from rfl] at this)
        (joinSpace_rev_headNonWs (pyWords p) (hwne p hp) (hgood p hp))
        (joinSpace_ne_nil (pyWords p) (hwne p hp) (hgood p hp))
    rw [hmap2]

/-! ## Claim theorem: C6 (amended) -/

/-- C6 (amended): `reflow_paragraphs` is idempotent at width `w` whenever
every paragraph's collapsed single line fits within `w` (in particular at
the default effectively-unbounded width for ordinary text); in general it is
not idempotent — when `textwrap` has to break a word longer than the width,
the emitted line can keep a trailing space that a second pass removes. -/
theorem c6_reflow_idempotent_of_fit (t : String) (w : Int) (hw : 0 < w)
    (hfit : ∀ p ∈ splitParas (pyStrip t.data), (collapseWs p).length ≤ w.toNat) :
    ∀ u, reflow_paragraphs t w = Except.ok u → reflow_paragraphs u w = Except.ok u := by
  intro u hu
  rw [reflow_paragraphs, if_neg (by omega)] at hu
  have hu' : u = ⟨reflowCore t.data w.toNat⟩ := (Except.ok.inj hu).symm
  subst hu'
  rw [reflow_paragraphs, if_neg (by omega)]
  show Except.ok (⟨reflowCore (reflowCore t.data w.toNat) w.toNat⟩ : String) = _
  rw [reflowCore_idem t.data w.toNat hfit]

/-- C6 witness. -/
theorem c6_witness :
    reflow_paragraphs "hello world" 9999 = Except.ok "hello world" :=
  c6_reflow_idempotent_of_fit "hello world" 9999 (by decide) (by decide) "hello world" rfl
